import Mathlib

/-!
# gosalesforce: a Lean model of the Salesforce REST client

The development embeds `salesforce.go` and `utils.go` and the parts of the Go
standard library they call (`net/url`, `net/http`, `encoding/json`).

Modelling conventions.

* A Go `string` or `[]byte` is a Lean `String`: the texts considered are valid
  UTF-8.  Where Go works on bytes (`url.QueryEscape`) the UTF-8 bytes of each
  character are used.
* A Go `map` with string keys is an association list kept sorted by key, so
  that equal maps are equal lists.
* A Go result pair `(value, error)` is a pair whose second component is an
  `Option Error`; `none` is the nil error.  A nil `interface{}` and the decoded
  JSON `null` are both `JValue.null`.
* The network, `url.Parse` and the conversion between decimal text and
  `float64` are not part of the repository and are not computable here: they
  are the fields of `Env`.  An operation takes the list of requests handed to
  `http.Client.Do` so far and returns it extended with the requests it hands over.
-/

namespace Salesforce

/-! ## Errors and maps -/

/-- The Go error values that can reach a caller of the package. -/
inductive Error where
  /-- The error of `http.NewRequest` for a method that is not a token. -/
  | invalidMethod (method : String)
  /-- An error of `url.Parse`. -/
  | urlError (msg : String)
  /-- An error returned by `http.Client.Do`. -/
  | transportError (msg : String)
  /-- An error met while reading a response body. -/
  | readError (msg : String)
  /-- The `*json.SyntaxError` of `json.Unmarshal`. -/
  | jsonSyntaxError
  /-- The `*json.UnmarshalTypeError` for a number literal that `float64` cannot hold. -/
  | jsonUnmarshalTypeError (literal : String)
  /-- The `*json.UnsupportedValueError` of `json.Marshal` for NaN and the infinities. -/
  | jsonUnsupportedValueError (bits : Nat)
deriving DecidableEq, Repr

/-- The lexicographic order on character lists. -/
def lessChars : List Char → List Char → Bool
  | _, [] => false
  | [], _ :: _ => true
  | a :: as, b :: bs => decide (a.toNat < b.toNat) || (a == b && lessChars as bs)

/-- The Go comparison `a < b` of two strings (byte order and code point order
agree on UTF-8). -/
def stringLess (a b : String) : Bool :=
  lessChars a.toList b.toList

/-- Assignment `m[k] = v` on a map kept as a key-sorted association list. -/
def mapSet {β : Type} (k : String) (v : β) : List (String × β) → List (String × β)
  | [] => [(k, v)]
  | (k', v') :: rest =>
    if stringLess k k' then (k, v) :: (k', v') :: rest
    else if k = k' then (k, v) :: rest
    else (k', v') :: mapSet k v rest

/-- Lookup `m[k]` on a map kept as an association list. -/
def mapGet {β : Type} (k : String) : List (String × β) → Option β
  | [] => none
  | (k', v') :: rest => if k = k' then some v' else mapGet k rest

/-! ## net/url -/

/-- The table `upperhex` of `net/url`. -/
def upperhex : List Char := "0123456789ABCDEF".toList

/-- The bytes `s[i]` of the Go string made of the single character `c`. -/
def utf8Bytes (c : Char) : List Nat :=
  (String.utf8EncodeChar c).map UInt8.toNat

/-- The function `shouldEscape(c, encodeQueryComponent)` of `net/url`: only the
ASCII letters and digits and `-`, `_`, `.`, `~` are left alone. -/
def shouldEscape (c : Nat) : Bool :=
  if (97 ≤ c && c ≤ 122) || (65 ≤ c && c ≤ 90) || (48 ≤ c && c ≤ 57) then false
  else if c = 45 || c = 95 || c = 46 || c = 126 then false
  else true

/-- One step of the second loop of `escape(s, encodeQueryComponent)`: what is
written for the byte `c`. -/
def escapeByte (c : Nat) : List Char :=
  if c = 32 then ['+']
  else if shouldEscape c then ['%', upperhex.getD (c / 16) '0', upperhex.getD (c % 16) '0']
  else [Char.ofNat c]

/-- The function `url.QueryEscape`. -/
def QueryEscape (s : String) : String :=
  String.mk (s.toList.flatMap fun ch => (utf8Bytes ch).flatMap escapeByte)

/-- The type `url.Values`, a map from a key to its list of values. -/
abbrev Values := List (String × List String)

/-- The method `Values.Set`. -/
def Values.Set (v : Values) (key value : String) : Values :=
  mapSet key [value] v

/-- The inner loop of `Values.Encode` over the values of one key. -/
def Values.encodeKey (keyEscaped : String) (buf : String) (vs : List String) : String :=
  vs.foldl (fun buf v =>
    (if buf.length > 0 then buf ++ "&" else buf) ++ keyEscaped ++ "=" ++ QueryEscape v) buf

/-- The method `Values.Encode`: the keys are visited in sorted order. -/
def Values.Encode (v : Values) : String :=
  v.foldl (fun buf kv => Values.encodeKey (QueryEscape kv.1) buf kv.2) ""

/-! ## net/http -/

/-- The type `http.Header`. -/
abbrev Header := List (String × List String)

/-- The table of token characters of `net/textproto` and `httpguts`. -/
def isTokenChar (c : Char) : Bool :=
  c.isAlphanum || "!#$%&'*+-.^_`|~".toList.contains c

/-- The rewriting loop of `canonicalMIMEHeaderKey`: a letter is upper case at
the start and after a hyphen and lower case elsewhere. -/
def canonicalLoop : Bool → List Char → List Char
  | _, [] => []
  | upper, c :: cs =>
    let c' := if upper && c.isLower then c.toUpper
              else if !upper && c.isUpper then c.toLower else c
    c' :: canonicalLoop (c' == '-') cs

/-- The function `textproto.CanonicalMIMEHeaderKey`: a key with a byte that is
not a token character is returned unchanged. -/
def CanonicalMIMEHeaderKey (s : String) : String :=
  if s.toList.all isTokenChar then String.mk (canonicalLoop true s.toList) else s

/-- The method `Header.Set`. -/
def Header.Set (h : Header) (key value : String) : Header :=
  mapSet (CanonicalMIMEHeaderKey key) [value] h

/-- The fields of `http.Request` that the package sets.  The URL is kept as the
text given to `http.NewRequest`; `Body` is `none` for a nil body reader. -/
structure Request where
  Method : String
  URL : String
  Header : Header
  Body : Option String
deriving DecidableEq, Repr

/-- The fields of `http.Response` that the package can read: the status code
and what `ioutil.ReadAll(resp.Body)` returns. -/
structure Response where
  StatusCode : Nat
  Body : String
  ReadErr : Option Error
deriving DecidableEq, Repr

/-- What the package takes from outside. -/
structure Env where
  /-- The error of `url.Parse` on a raw URL, `none` when it parses. -/
  parseURL : String → Option Error
  /-- The result of `http.Client.Do` on a request, given the requests handed
  over before (the remote state and the cookie jar depend on nothing else). -/
  roundTrip : List Request → Request → Except Error Response
  /-- The bits of `strconv.ParseFloat(s, 64)` on a JSON number literal, `none`
  when it reports an error (the value is out of range). -/
  ParseFloat : String → Option Nat
  /-- The text `encoding/json` writes for the finite `float64` of the given bits. -/
  FormatFloat : Nat → String

/-- The function `validMethod` of `net/http`. -/
def validMethod (method : String) : Bool :=
  method.length > 0 && method.toList.all isTokenChar

/-- The function `http.NewRequest`; the new request has an empty header. -/
def NewRequest (env : Env) (method url : String) (body : Option String) :
    Except Error Request :=
  let method := if method = "" then "GET" else method
  if !validMethod method then .error (.invalidMethod method)
  else
    match env.parseURL url with
    | some err => .error err
    | none => .ok { Method := method, URL := url, Header := [], Body := body }

/-- The method `http.Client.Do`: the request is handed over and recorded. -/
def HttpClient.Do (env : Env) (req : Request) (sent : List Request) :
    Except Error Response × List Request :=
  (env.roundTrip sent req, sent ++ [req])

/-- The method `http.Client.Get`: `NewRequest("GET", url, nil)` followed by `Do`. -/
def HttpClient.Get (env : Env) (url : String) (sent : List Request) :
    Except Error Response × List Request :=
  match NewRequest env "GET" url none with
  | .error err => (.error err, sent)
  | .ok req => HttpClient.Do env req sent

/-! ## encoding/json: values -/

/-- The values an `interface{}` holds after `json.Unmarshal`, which are also the
data given to `json.Marshal`: nil, `bool`, `float64` (by its 64 bits),
`string`, `[]interface{}` and `map[string]interface{}` (sorted by key). -/
inductive JValue where
  | null
  | bool (b : Bool)
  | number (bits : Nat)
  | string (s : String)
  | array (elems : List JValue)
  | object (members : List (String × JValue))
deriving Repr

/-- The pair `(interface{}, error)` the operations return. -/
abbrev Result := JValue × Option Error

/-! ## encoding/json: decoding -/

/-- The constant `maxNestingDepth` of the scanner. -/
def maxNestingDepth : Nat := 10000

/-- The function `isSpace` of the scanner. -/
def isSpace (c : Char) : Bool :=
  c == ' ' || c == '\t' || c == '\r' || c == '\n'

/-- Skips the white space between tokens. -/
def skipSpace : List Char → List Char
  | [] => []
  | c :: cs => if isSpace c then skipSpace cs else c :: cs

/-- The longest run of decimal digits at the head of the input, and what follows. -/
def takeDigits : List Char → List Char × List Char
  | [] => ([], [])
  | c :: cs =>
    if c.isDigit then ((takeDigits cs).1.cons c, (takeDigits cs).2) else ([], c :: cs)

/-- The integer part of a number literal (scanner states `stateNeg`, `state0`, `state1`). -/
def scanInt : List Char → Option (List Char × List Char)
  | [] => none
  | c :: cs =>
    if c == '0' then some (['0'], cs)
    else if c.isDigit then some (c :: (takeDigits cs).1, (takeDigits cs).2)
    else none

/-- The optional fraction of a number literal (`stateDot`, `stateDot0`). -/
def scanFrac : List Char → Option (List Char × List Char)
  | '.' :: cs =>
    if (takeDigits cs).1.isEmpty then none else some ('.' :: (takeDigits cs).1, (takeDigits cs).2)
  | cs => some ([], cs)

/-- The digits of an exponent, after its optional sign (`stateESign`, `stateE0`). -/
def scanExpDigits (pre : List Char) (cs : List Char) : Option (List Char × List Char) :=
  if (takeDigits cs).1.isEmpty then none else some (pre ++ (takeDigits cs).1, (takeDigits cs).2)

/-- The optional exponent of a number literal (`stateE`). -/
def scanExp : List Char → Option (List Char × List Char)
  | 'e' :: '+' :: cs => scanExpDigits ['e', '+'] cs
  | 'e' :: '-' :: cs => scanExpDigits ['e', '-'] cs
  | 'e' :: cs => scanExpDigits ['e'] cs
  | 'E' :: '+' :: cs => scanExpDigits ['E', '+'] cs
  | 'E' :: '-' :: cs => scanExpDigits ['E', '-'] cs
  | 'E' :: cs => scanExpDigits ['E'] cs
  | cs => some ([], cs)

/-- A number literal without its sign. -/
def scanUnsigned (cs : List Char) : Option (List Char × List Char) :=
  match scanInt cs with
  | none => none
  | some (i, r1) =>
    match scanFrac r1 with
    | none => none
    | some (f, r2) =>
      match scanExp r2 with
      | none => none
      | some (e, r3) => some (i ++ f ++ e, r3)

/-- A number literal at the head of the input: its text and what follows it,
or `none` when the scanner reports a syntax error. -/
def scanNumber : List Char → Option (List Char × List Char)
  | '-' :: cs => (scanUnsigned cs).map fun p => ('-' :: p.1, p.2)
  | cs => scanUnsigned cs

/-- The value of a hexadecimal digit (`getu4`). -/
def hexVal (c : Char) : Option Nat :=
  if c.isDigit then some (c.toNat - 48)
  else if 'a' ≤ c ∧ c ≤ 'f' then some (c.toNat - 87)
  else if 'A' ≤ c ∧ c ≤ 'F' then some (c.toNat - 55)
  else none

/-- The function `getu4` on the four characters after a backslash and `u`. -/
def getu4 (a b c d : Char) : Option Nat :=
  match hexVal a, hexVal b, hexVal c, hexVal d with
  | some x, some y, some z, some w => some (((x * 16 + y) * 16 + z) * 16 + w)
  | _, _, _, _ => none

/-- One item of a string literal: a character, or the value of a `\u` escape. -/
inductive StrUnit where
  | ch (c : Char)
  | u4 (n : Nat)
deriving DecidableEq, Repr

/-- The character of a one-letter escape, `none` for a letter the scanner rejects. -/
def escapeChar (e : Char) : Option Char :=
  if e == '"' then some '"'
  else if e == '\\' then some '\\'
  else if e == '/' then some '/'
  else if e == 'b' then some (Char.ofNat 8)
  else if e == 'f' then some (Char.ofNat 12)
  else if e == 'n' then some '\n'
  else if e == 'r' then some '\r'
  else if e == 't' then some '\t'
  else none

/-- The body of a string literal after its opening quote, up to and including
the closing quote (scanner states `stateInString`, `stateInStringEsc`,
`stateInStringEscU`): the items read and what follows the literal, or `none`
on a syntax error (no closing quote, a control character, a wrong escape). -/
def scanStringUnits : List Char → Option (List StrUnit × List Char)
  | [] => none
  | c :: rest =>
    if c = '"' then some ([], rest)
    else if c = '\\' then
      match rest with
      | [] => none
      | e :: rest1 =>
        if e = 'u' then
          match rest1 with
          | a :: b :: c :: d :: rest2 =>
            match getu4 a b c d with
            | none => none
            | some n => (scanStringUnits rest2).map fun p => (StrUnit.u4 n :: p.1, p.2)
          | _ => none
        else
          match escapeChar e with
          | none => none
          | some x => (scanStringUnits rest1).map fun p => (StrUnit.ch x :: p.1, p.2)
    else if c.toNat < 32 then none
    else (scanStringUnits rest).map fun p => (StrUnit.ch c :: p.1, p.2)

/-- The rune `unicode.ReplacementChar`. -/
def replacementChar : Char := Char.ofNat 0xFFFD

/-- The function `utf16.IsSurrogate`. -/
def isSurrogate (r : Nat) : Bool := 0xD800 ≤ r && r < 0xE000

/-- The function `utf16.DecodeRune`. -/
def decodeRune (r1 r2 : Nat) : Char :=
  if 0xD800 ≤ r1 && r1 < 0xDC00 && 0xDC00 ≤ r2 && r2 < 0xE000 then
    Char.ofNat ((r1 - 0xD800) * 1024 + (r2 - 0xDC00) + 0x10000)
  else replacementChar

/-- The characters `unquote` writes for the items of a literal: a `\u` escape
that is a surrogate is joined with a following `\u` escape when the two make a
valid pair and is replaced by U+FFFD otherwise. -/
def unquoteUnits : List StrUnit → List Char
  | [] => []
  | .ch c :: rest => c :: unquoteUnits rest
  | .u4 r :: .u4 r1 :: rest =>
    if isSurrogate r then
      if decodeRune r r1 != replacementChar then decodeRune r r1 :: unquoteUnits rest
      else replacementChar :: unquoteUnits (.u4 r1 :: rest)
    else Char.ofNat r :: unquoteUnits (.u4 r1 :: rest)
  | .u4 r :: rest =>
    (if isSurrogate r then replacementChar else Char.ofNat r) :: unquoteUnits rest

/-- A string literal after its opening quote: the decoded string and what
follows the literal. -/
def scanString (cs : List Char) : Option (String × List Char) :=
  (scanStringUnits cs).map fun p => (String.mk (unquoteUnits p.1), p.2)

/-- The outcome of decoding a value at the head of the input. -/
inductive Parsed where
  /-- A value was read; `saved` is the first saved error (`d.savedError`). -/
  | ok (v : JValue) (saved : Option Error) (rest : List Char)
  /-- The scanner rejects the input. -/
  | bad
  /-- The recursion budget of the model is used up. -/
  | fuel
deriving Repr

/-- The method `decodeState.saveError`: the first error is kept. -/
def saveError (saved err : Option Error) : Option Error :=
  match saved with
  | some e => some e
  | none => err

/-- The method `decodeState.convertNumber` together with `literalInterface`:
a literal that `strconv.ParseFloat` rejects decodes to nil and saves an
`UnmarshalTypeError`. -/
def convertNumber (env : Env) (lit : List Char) (rest : List Char) : Parsed :=
  match env.ParseFloat (String.mk lit) with
  | some f => .ok (.number f) none rest
  | none => .ok .null (some (.jsonUnmarshalTypeError (String.mk lit))) rest

/-- The rest of a literal name after its first letter (`stateT`, `stateTr`,
`stateTru` and the like): what follows `word` at the head of the input. -/
def scanLiteral : List Char → List Char → Option (List Char)
  | [], cs => some cs
  | _ :: _, [] => none
  | w :: ws, c :: cs => if w = c then scanLiteral ws cs else none

mutual
/-- The method `valueInterface` on input already checked by the scanner, with
the check folded in: `depth` is the number of open arrays and objects. -/
def decodeValue (env : Env) : Nat → Nat → List Char → Parsed
  | 0, _, _ => .fuel
  | n + 1, depth, cs =>
    match skipSpace cs with
    | [] => .bad
    | c :: rest =>
      if c = '\x7b' then
        if depth + 1 > maxNestingDepth then .bad
        else
          match skipSpace rest with
          | [] => .bad
          | c1 :: rest1 =>
            if c1 = '\x7d' then .ok (.object []) none rest1
            else decodeMembers env n (depth + 1) [] none (c1 :: rest1)
      else if c = '[' then
        if depth + 1 > maxNestingDepth then .bad
        else
          match skipSpace rest with
          | [] => .bad
          | c1 :: rest1 =>
            if c1 = ']' then .ok (.array []) none rest1
            else decodeElems env n (depth + 1) [] none (c1 :: rest1)
      else if c = '"' then
        match scanString rest with
        | none => .bad
        | some (s, rest1) => .ok (.string s) none rest1
      else if c = 't' then
        match scanLiteral ['r', 'u', 'e'] rest with
        | none => .bad
        | some rest1 => .ok (.bool true) none rest1
      else if c = 'f' then
        match scanLiteral ['a', 'l', 's', 'e'] rest with
        | none => .bad
        | some rest1 => .ok (.bool false) none rest1
      else if c = 'n' then
        match scanLiteral ['u', 'l', 'l'] rest with
        | none => .bad
        | some rest1 => .ok .null none rest1
      else
        match scanNumber (c :: rest) with
        | none => .bad
        | some (lit, rest1) => convertNumber env lit rest1
/-- The loop of `arrayInterface`: `acc` holds the elements read so far. -/
def decodeElems (env : Env) : Nat → Nat → List JValue → Option Error → List Char → Parsed
  | 0, _, _, _, _ => .fuel
  | n + 1, depth, acc, saved, cs =>
    match decodeValue env n depth cs with
    | .fuel => .fuel
    | .bad => .bad
    | .ok v err rest =>
      match skipSpace rest with
      | [] => .bad
      | c :: rest1 =>
        if c = ',' then decodeElems env n depth (acc ++ [v]) (saveError saved err) rest1
        else if c = ']' then .ok (.array (acc ++ [v])) (saveError saved err) rest1
        else .bad
/-- The loop of `objectInterface`: `acc` holds the members read so far; a key
read again replaces the earlier member. -/
def decodeMembers (env : Env) :
    Nat → Nat → List (String × JValue) → Option Error → List Char → Parsed
  | 0, _, _, _, _ => .fuel
  | n + 1, depth, acc, saved, cs =>
    match skipSpace cs with
    | [] => .bad
    | c :: rest =>
      if c = '"' then
        match scanString rest with
        | none => .bad
        | some (key, rest1) =>
          match skipSpace rest1 with
          | [] => .bad
          | c2 :: rest2 =>
            if c2 = ':' then
              match decodeValue env n depth rest2 with
              | .fuel => .fuel
              | .bad => .bad
              | .ok v err rest3 =>
                match skipSpace rest3 with
                | [] => .bad
                | c4 :: rest4 =>
                  if c4 = ',' then
                    decodeMembers env n depth (mapSet key v acc) (saveError saved err) rest4
                  else if c4 = '\x7d' then
                    .ok (.object (mapSet key v acc)) (saveError saved err) rest4
                  else .bad
            else .bad
      else .bad
end

/-- The function `json.Unmarshal(body, &data)` for `var data interface{}`: the
value left in `data` and the error.  On a syntax error `data` keeps its nil;
on a saved number error it holds the decoded value with nil for that number. -/
def Unmarshal (env : Env) (body : String) : Result :=
  match decodeValue env (2 * body.length + 2) 0 body.toList with
  | .ok v saved rest =>
    match skipSpace rest with
    | [] => (v, saved)
    | _ => (.null, some .jsonSyntaxError)
  | .bad => (.null, some .jsonSyntaxError)
  | .fuel => (.null, some .jsonSyntaxError)

/-! ## encoding/json: encoding -/

/-- The table `hex` of `encoding/json`. -/
def hexLower : List Char := "0123456789abcdef".toList

/-- The table `htmlSafeSet`: the ASCII characters from the space on, without
the double quote, the backslash and `<`, `>`, `&`. -/
def htmlSafe (c : Char) : Bool :=
  32 ≤ c.toNat && c.toNat < 128 &&
    !(c == '"' || c == '\\' || c == '<' || c == '>' || c == '&')

/-- What `appendString(dst, src, true)` writes for one character of `src`. -/
def appendStringChar (c : Char) : List Char :=
  if c.toNat < 128 then
    if htmlSafe c then [c]
    else if c == '\\' || c == '"' then ['\\', c]
    else if c.toNat = 8 then ['\\', 'b']
    else if c.toNat = 12 then ['\\', 'f']
    else if c == '\n' then ['\\', 'n']
    else if c == '\r' then ['\\', 'r']
    else if c == '\t' then ['\\', 't']
    else ['\\', 'u', '0', '0', hexLower.getD (c.toNat / 16) '0', hexLower.getD (c.toNat % 16) '0']
  else if c.toNat = 0x2028 || c.toNat = 0x2029 then
    ['\\', 'u', '2', '0', '2', hexLower.getD (c.toNat % 16) '0']
  else [c]

/-- The function `appendString` with `escapeHTML` set: a quoted JSON string. -/
def appendString (s : String) : String :=
  String.mk ('"' :: s.toList.flatMap appendStringChar ++ ['"'])

/-- Whether the `float64` of the given bits is neither NaN nor an infinity:
its eleven exponent bits are not all ones. -/
def isFinite (bits : Nat) : Bool :=
  (bits % 2 ^ 64) / 2 ^ 52 % 2 ^ 11 != 2 ^ 11 - 1

/-- The texts of an array or object body, joined by commas. -/
def joinComma : List String → String
  | [] => ""
  | [x] => x
  | x :: y :: rest => x ++ "," ++ joinComma (y :: rest)

mutual
/-- The encoder `reflectValue` on the dynamic types of a `JValue`. -/
def marshalValue (env : Env) : JValue → Except Error String
  | .null => .ok "null"
  | .bool b => .ok (if b then "true" else "false")
  | .number bits =>
    if isFinite bits then .ok (env.FormatFloat bits)
    else .error (.jsonUnsupportedValueError bits)
  | .string s => .ok (appendString s)
  | .array elems =>
    match marshalElems env elems with
    | .error err => .error err
    | .ok parts => .ok ("[" ++ joinComma parts ++ "]")
  | .object members =>
    match marshalMembers env members with
    | .error err => .error err
    | .ok parts =>
      .ok ("\x7b" ++ joinComma ((parts.foldl (fun m kv => mapSet kv.1 kv.2 m) []).map
        fun kv => appendString kv.1 ++ ":" ++ kv.2) ++ "\x7d")
/-- The encodings of the elements of a slice; the first error stops the encoder. -/
def marshalElems (env : Env) : List JValue → Except Error (List String)
  | [] => .ok []
  | v :: rest =>
    match marshalValue env v with
    | .error err => .error err
    | .ok x =>
      match marshalElems env rest with
      | .error err => .error err
      | .ok xs => .ok (x :: xs)
/-- The encodings of the members of a map, by key; the encoder then writes
them in sorted key order. -/
def marshalMembers (env : Env) : List (String × JValue) → Except Error (List (String × String))
  | [] => .ok []
  | (k, v) :: rest =>
    match marshalValue env v with
    | .error err => .error err
    | .ok x =>
      match marshalMembers env rest with
      | .error err => .error err
      | .ok xs => .ok ((k, x) :: xs)
end

/-- The function `json.Marshal` on a value of the dynamic types of `JValue`
(a nil slice or map, which Go writes as `null`, is `JValue.null` here). -/
def Marshal (env : Env) (data : JValue) : Except Error String :=
  marshalValue env data

/-! ## utils.go -/

/-- The function `httpResponseToJson`. -/
def httpResponseToJson (env : Env) (resp : Response) : Result :=
  match resp.ReadErr with
  | some err => (.null, some err)
  | none =>
    match Unmarshal env resp.Body with
    | (data, some err) => (data, some err)
    | (data, none) => (data, none)

/-! ## salesforce.go -/

/-- The constant `Version`. -/
def Version : Nat := 31

/-- The struct `SalesforceClient`.  The `HttpClient` field is the `Env` and the
list of requests that the operations take. -/
structure SalesforceClient where
  InstanceURL : String
  SessionID : String
  BaseURL : String
  ObjectName : String
  Header : List (String × String)
deriving DecidableEq, Repr

/-- The loop `for k, v := range s.Header { req.Header.Set(k, v) }`. -/
def setHeaders (header : List (String × String)) (req : Request) : Request :=
  header.foldl (fun r kv => { r with Header := r.Header.Set kv.1 kv.2 }) req

/-- The method `getJsonDataFromURL`. -/
def getJsonDataFromURL (env : Env) (_s : SalesforceClient) (requestURL : String)
    (sent : List Request) : Result × List Request :=
  match HttpClient.Get env requestURL sent with
  | (.error err, sent1) => ((.null, some err), sent1)
  | (.ok resp, sent1) => (httpResponseToJson env resp, sent1)

/-- The method `setJsonDataForURL`. -/
def setJsonDataForURL (env : Env) (s : SalesforceClient) (httpMethod requestURL : String)
    (data : JValue) (sent : List Request) : Result × List Request :=
  let retData := JValue.object []
  match Marshal env data with
  | .error err => ((retData, some err), sent)
  | .ok jsonData =>
    match NewRequest env httpMethod requestURL (some jsonData) with
    | .error err => ((retData, some err), sent)
    | .ok req =>
      match HttpClient.Do env (setHeaders s.Header req) sent with
      | (.error err, sent1) => ((retData, some err), sent1)
      | (.ok resp, sent1) => (httpResponseToJson env resp, sent1)

/-- The method `deleteDataForURL`. -/
def deleteDataForURL (env : Env) (s : SalesforceClient) (requestURL : String)
    (sent : List Request) : Option Error × List Request :=
  match NewRequest env "DELETE" requestURL none with
  | .error err => (some err, sent)
  | .ok req =>
    match HttpClient.Do env (setHeaders s.Header req) sent with
    | (.error err, sent1) => (some err, sent1)
    | (.ok _, sent1) => (none, sent1)

/-- The function `NewSalesforceClient`. -/
def NewSalesforceClient (instanceURL sessionID : String) : SalesforceClient :=
  let baseURL := "https://" ++ instanceURL ++ "/services/data/v" ++ toString Version ++ "/"
  let header :=
    mapSet "Authorization" ("Bearer " ++ sessionID) (mapSet "Content-Type" "application/json" [])
  { InstanceURL := instanceURL
    SessionID := sessionID
    BaseURL := baseURL
    ObjectName := ""
    Header := header }

/-- The tail shared by the operations that return a value:
`if err != nil { return data, err }; return data, nil`. -/
def returnData (r : Result × List Request) : Result × List Request :=
  match r with
  | ((data, some err), sent1) => ((data, some err), sent1)
  | ((data, none), sent1) => ((data, none), sent1)

/-- The method `Describe`. -/
def Describe (env : Env) (s : SalesforceClient) (sent : List Request) : Result × List Request :=
  let requestURL := s.BaseURL ++ "sobjects"
  returnData (getJsonDataFromURL env s requestURL sent)

/-- The method `Search`. -/
def Search (env : Env) (s : SalesforceClient) (query : String) (sent : List Request) :
    Result × List Request :=
  let v : Values := Values.Set [] "q" query
  let requestURL := s.BaseURL ++ "search/" ++ Values.Encode v
  returnData (getJsonDataFromURL env s requestURL sent)

/-- The method `Create`. -/
def Create (env : Env) (s : SalesforceClient) (objectName : String) (data : JValue)
    (sent : List Request) : Result × List Request :=
  let requestURL := s.BaseURL ++ objectName
  returnData (setJsonDataForURL env s "POST" requestURL data sent)

/-- The method `Get`. -/
def Get (env : Env) (s : SalesforceClient) (objectName recordID : String)
    (sent : List Request) : Result × List Request :=
  let requestURL := s.BaseURL ++ objectName ++ "/" ++ recordID
  returnData (getJsonDataFromURL env s requestURL sent)

/-- The method `Upsert`. -/
def Upsert (env : Env) (s : SalesforceClient) (objectName recordID : String) (data : JValue)
    (sent : List Request) : Result × List Request :=
  let requestURL := s.BaseURL ++ objectName ++ "/" ++ recordID
  returnData (setJsonDataForURL env s "PATCH" requestURL data sent)

/-- The method `Update`. -/
def Update (env : Env) (s : SalesforceClient) (objectName recordID : String) (data : JValue)
    (sent : List Request) : Result × List Request :=
  let requestURL := s.BaseURL ++ objectName ++ "/" ++ recordID
  returnData (setJsonDataForURL env s "PATCH" requestURL data sent)

/-- The method `Delete`. -/
def Delete (env : Env) (s : SalesforceClient) (objectName recordID : String)
    (sent : List Request) : Option Error × List Request :=
  let requestURL := s.BaseURL ++ objectName ++ "/" ++ recordID
  match deleteDataForURL env s requestURL sent with
  | (some err, sent1) => (some err, sent1)
  | (none, sent1) => (none, sent1)

/-! ## Sample environments -/

/-- A server that answers every request with the given status code and body;
every URL parses.  `ParseFloat` reports an error on every literal: the only
number in the sample bodies is `1e999`, which is out of the range of `float64`
and on which `strconv.ParseFloat` does report one. -/
def mockEnv (status : Nat) (body : String) : Env :=
  { parseURL := fun _ => none
    roundTrip := fun _ _ => .ok { StatusCode := status, Body := body, ReadErr := none }
    ParseFloat := fun _ => none
    FormatFloat := fun _ => "0" }

/-- The client of the examples. -/
def sampleClient : SalesforceClient :=
  NewSalesforceClient "na1.salesforce.com" "TOKEN"

/-! ## Vocabulary of the statements -/

/-- The request `http.Client.Get` builds for a URL: no header is set on it. -/
def getRequest (url : String) : Request :=
  { Method := "GET", URL := url, Header := [], Body := none }

/-- The request `setJsonDataForURL` and `deleteDataForURL` hand over: a new
request on which the header map of the client has been copied. -/
def clientRequest (s : SalesforceClient) (method url : String) (body : Option String) :
    Request :=
  setHeaders s.Header { Method := method, URL := url, Header := [], Body := body }

/-- The operations that read: `Describe`, `Search` and `Get` with their arguments. -/
inductive ReadOp where
  | describe
  | search (query : String)
  | get (objectName recordID : String)
deriving DecidableEq, Repr

/-- The URL a read operation asks for. -/
def ReadOp.requestURL (s : SalesforceClient) : ReadOp → String
  | .describe => s.BaseURL ++ "sobjects"
  | .search query => s.BaseURL ++ "search/" ++ ("q=" ++ QueryEscape query)
  | .get objectName recordID => s.BaseURL ++ objectName ++ "/" ++ recordID

/-- Runs a read operation. -/
def ReadOp.run (env : Env) (s : SalesforceClient) : ReadOp → List Request → Result × List Request
  | .describe => Describe env s
  | .search query => Search env s query
  | .get objectName recordID => Get env s objectName recordID

/-- The bits of a quiet NaN. -/
def nanBits : Nat := 0x7FF8000000000000

/-! ## Vocabulary of the encode and decode law -/

mutual
/-- The number of arrays and objects nested in a value, itself included. -/
def JValue.depth : JValue → Nat
  | .array elems => depthElems elems + 1
  | .object members => depthMembers members + 1
  | _ => 0
/-- The largest depth among the elements of an array. -/
def depthElems : List JValue → Nat
  | [] => 0
  | v :: rest => max v.depth (depthElems rest)
/-- The largest depth among the members of an object. -/
def depthMembers : List (String × JValue) → Nat
  | [] => 0
  | (_, v) :: rest => max v.depth (depthMembers rest)
end

/-- Whether each key is below every later key: the keys of a map in its
sorted representation. -/
def keysAscending : List String → Bool
  | [] => true
  | k :: rest => rest.all (fun k1 => stringLess k k1) && keysAscending rest

mutual
/-- Whether a value is data `json.Marshal` accepts, in the representation of
the model: every number is the bit pattern of a finite `float64` and every
map is sorted by key. -/
def JValue.serializable : JValue → Bool
  | .number bits => decide (bits < 2 ^ 64) && isFinite bits
  | .array elems => serializableElems elems
  | .object members => keysAscending (members.map Prod.fst) && serializableMembers members
  | _ => true
/-- Whether every element of an array is serializable. -/
def serializableElems : List JValue → Bool
  | [] => true
  | v :: rest => v.serializable && serializableElems rest
/-- Whether every member of an object is serializable. -/
def serializableMembers : List (String × JValue) → Bool
  | [] => true
  | (_, v) :: rest => v.serializable && serializableMembers rest
end

/-- Whether the input after a value ends it: the end of the input, a comma or
a closing bracket. -/
def endsValue : List Char → Bool
  | [] => true
  | c :: _ => c == ',' || c == ']' || c == '\x7d'

/-- Whether an encoding starts a value: its first character is neither white
space nor a closing square bracket. -/
def startsValue : List Char → Bool
  | [] => false
  | c :: _ => !isSpace c && c != ']'

/-- The guarantee of `strconv` on which the law for numbers rests: the text
written for a finite `float64` is a JSON number literal that ends where the
text ends, and `ParseFloat` reads the same `float64` back from it. -/
def NumbersRoundTrip (env : Env) : Prop :=
  ∀ bits, bits < 2 ^ 64 → isFinite bits = true →
    env.ParseFloat (env.FormatFloat bits) = some bits ∧
    ∀ rest, endsValue rest = true →
      scanNumber ((env.FormatFloat bits).data ++ rest) = some ((env.FormatFloat bits).data, rest)

/-- The item the scanner reads back from what `appendString` writes for a
character: the value of a `\u` escape when one is written. -/
def stringUnit (c : Char) : StrUnit :=
  match appendStringChar c with
  | '\\' :: 'u' :: _ => .u4 c.toNat
  | _ => .ch c

/-- Arrays nested in one another: `nest k` is `k + 1` arrays deep. -/
def nest : Nat → JValue
  | 0 => .array []
  | k + 1 => .array [nest k]

/-- An environment with a toy number format that satisfies `NumbersRoundTrip`:
the bits `b` are written as a one followed by `b` zeros. -/
def unaryEnv : Env :=
  { parseURL := fun _ => none
    roundTrip := fun _ _ => .error (.transportError "no network")
    ParseFloat := fun s => some (s.length - 1)
    FormatFloat := fun bits => String.mk ('1' :: List.replicate bits '0') }

/-- The body `setJsonDataForURL` builds from `data` with `json.Marshal`, handed
to the decoder the client applies to responses (`httpResponseToJson`): the
pair the decoder returns, or `none` when the data cannot be encoded. -/
def encodeDecode (env : Env) (data : JValue) : Option Result :=
  match Marshal env data with
  | .error _ => none
  | .ok body => some (httpResponseToJson env { StatusCode := 200, Body := body, ReadErr := none })

/-- A sample record with every kind of value. -/
def sampleData : JValue :=
  .object [("Name", .string "Acme <&> \"Co\"\n"), ("active", .bool true),
    ("employees", .number 3), ("owner", .null),
    ("tags", .array [.string "a", .array [], .object []])]

/-! ## Lemmas on the helpers -/

theorem toString_Version : toString Version = "31" := by decide

theorem NewRequest_eq (env : Env) (m url : String) (body : Option String)
    (hm : m ≠ "") (hv : validMethod m = true) :
    NewRequest env m url body =
      match env.parseURL url with
      | some err => .error err
      | none => .ok { Method := m, URL := url, Header := [], Body := body } := by
  simp [NewRequest, hm, hv]

theorem HttpClient_Get_eq (env : Env) (url : String) (sent : List Request) :
    HttpClient.Get env url sent =
      match env.parseURL url with
      | some err => (.error err, sent)
      | none =>
        (env.roundTrip sent { Method := "GET", URL := url, Header := [], Body := none },
          sent ++ [{ Method := "GET", URL := url, Header := [], Body := none }]) := by
  unfold HttpClient.Get
  rw [NewRequest_eq env "GET" url none (by decide) (by decide)]
  cases env.parseURL url <;> simp [HttpClient.Do]

theorem returnData_eq (r : Result × List Request) : returnData r = r := by
  rcases r with ⟨⟨d, e⟩, s⟩
  cases e <;> rfl

theorem setHeaders_fields (hdr : List (String × String)) (req : Request) :
    (setHeaders hdr req).Method = req.Method ∧ (setHeaders hdr req).URL = req.URL ∧
      (setHeaders hdr req).Body = req.Body := by
  induction hdr generalizing req with
  | nil => simp [setHeaders]
  | cons kv rest ih =>
    have h := ih { req with Header := req.Header.Set kv.1 kv.2 }
    simpa [setHeaders] using h

theorem NewSalesforceClient_Header (h t : String) :
    (NewSalesforceClient h t).Header =
      [("Authorization", "Bearer " ++ t), ("Content-Type", "application/json")] := by
  have h1 : stringLess "Authorization" "Content-Type" = true := by decide
  simp [NewSalesforceClient, mapSet, h1]

theorem setHeaders_NewSalesforceClient (h t m url : String) (body : Option String) :
    setHeaders (NewSalesforceClient h t).Header
        { Method := m, URL := url, Header := [], Body := body } =
      { Method := m, URL := url,
        Header := [("Authorization", ["Bearer " ++ t]), ("Content-Type", ["application/json"])],
        Body := body } := by
  have h1 : CanonicalMIMEHeaderKey "Authorization" = "Authorization" := by decide
  have h2 : CanonicalMIMEHeaderKey "Content-Type" = "Content-Type" := by decide
  have h3 : stringLess "Content-Type" "Authorization" = false := by decide
  have h4 : ("Content-Type" = "Authorization") = False := by decide
  rw [NewSalesforceClient_Header]
  simp [setHeaders, Header.Set, mapSet, h1, h2, h3, h4]

theorem httpResponseToJson_eq (env : Env) (resp : Response) :
    httpResponseToJson env resp =
      match resp.ReadErr with
      | some err => (.null, some err)
      | none => Unmarshal env resp.Body := by
  unfold httpResponseToJson
  cases resp.ReadErr with
  | some err => rfl
  | none =>
    rcases h : Unmarshal env resp.Body with ⟨d, e⟩
    cases e <;> simp

theorem getJsonDataFromURL_eq (env : Env) (s : SalesforceClient) (url : String)
    (sent : List Request) :
    getJsonDataFromURL env s url sent =
      match env.parseURL url with
      | some err => ((.null, some err), sent)
      | none =>
        match env.roundTrip sent (getRequest url) with
        | .error err => ((.null, some err), sent ++ [getRequest url])
        | .ok resp => (httpResponseToJson env resp, sent ++ [getRequest url]) := by
  unfold getJsonDataFromURL
  rw [HttpClient_Get_eq]
  cases env.parseURL url with
  | some err => rfl
  | none =>
    show (match (env.roundTrip sent (getRequest url), sent ++ [getRequest url]) with
      | (.error err, sent1) => ((JValue.null, some err), sent1)
      | (.ok resp, sent1) => (httpResponseToJson env resp, sent1)) = _
    cases env.roundTrip sent (getRequest url) <;> rfl

theorem setJsonDataForURL_eq (env : Env) (s : SalesforceClient) (m url : String)
    (data : JValue) (sent : List Request) (hm : m ≠ "") (hv : validMethod m = true) :
    setJsonDataForURL env s m url data sent =
      match Marshal env data with
      | .error err => ((.object [], some err), sent)
      | .ok jsonData =>
        match env.parseURL url with
        | some err => ((.object [], some err), sent)
        | none =>
          match env.roundTrip sent (clientRequest s m url (some jsonData)) with
          | .error err =>
            ((.object [], some err), sent ++ [clientRequest s m url (some jsonData)])
          | .ok resp =>
            (httpResponseToJson env resp, sent ++ [clientRequest s m url (some jsonData)]) := by
  unfold setJsonDataForURL
  cases Marshal env data with
  | error err => rfl
  | ok jsonData =>
    simp only [NewRequest_eq env m url (some jsonData) hm hv]
    cases env.parseURL url with
    | some err => rfl
    | none =>
      show (match (env.roundTrip sent (clientRequest s m url (some jsonData)),
          sent ++ [clientRequest s m url (some jsonData)]) with
        | (.error err, sent1) => ((JValue.object [], some err), sent1)
        | (.ok resp, sent1) => (httpResponseToJson env resp, sent1)) = _
      cases env.roundTrip sent (clientRequest s m url (some jsonData)) <;> rfl

theorem deleteDataForURL_eq (env : Env) (s : SalesforceClient) (url : String)
    (sent : List Request) :
    deleteDataForURL env s url sent =
      match env.parseURL url with
      | some err => (some err, sent)
      | none =>
        match env.roundTrip sent (clientRequest s "DELETE" url none) with
        | .error err => (some err, sent ++ [clientRequest s "DELETE" url none])
        | .ok _ => (none, sent ++ [clientRequest s "DELETE" url none]) := by
  unfold deleteDataForURL
  rw [NewRequest_eq env "DELETE" url none (by decide) (by decide)]
  cases env.parseURL url with
  | some err => rfl
  | none =>
    show (match (env.roundTrip sent (clientRequest s "DELETE" url none),
        sent ++ [clientRequest s "DELETE" url none]) with
      | (.error err, sent1) => (some err, sent1)
      | (.ok _, sent1) => (none, sent1)) = _
    cases env.roundTrip sent (clientRequest s "DELETE" url none) <;> rfl

theorem Delete_eq (env : Env) (s : SalesforceClient) (o r : String) (sent : List Request) :
    Delete env s o r sent = deleteDataForURL env s (s.BaseURL ++ o ++ "/" ++ r) sent := by
  show (match deleteDataForURL env s (s.BaseURL ++ o ++ "/" ++ r) sent with
    | (some err, sent1) => (some err, sent1)
    | (none, sent1) => (none, sent1)) = _
  rcases deleteDataForURL env s (s.BaseURL ++ o ++ "/" ++ r) sent with ⟨e, s1⟩
  cases e <;> rfl

theorem Values_Encode_q (q : String) :
    Values.Encode (Values.Set [] "q" q) = "q=" ++ QueryEscape q := by
  have h : QueryEscape "q" = "q" := by decide
  simp [Values.Encode, Values.Set, mapSet, Values.encodeKey, h]

theorem ReadOp_run_eq (env : Env) (s : SalesforceClient) (op : ReadOp) (sent : List Request) :
    op.run env s sent = getJsonDataFromURL env s (op.requestURL s) sent := by
  cases op with
  | describe => simp [ReadOp.run, ReadOp.requestURL, Describe, returnData_eq]
  | search q => simp [ReadOp.run, ReadOp.requestURL, Search, returnData_eq, Values_Encode_q]
  | get o r => simp [ReadOp.run, ReadOp.requestURL, Get, returnData_eq]

theorem upperhex_getD_ne (n : Nat) : upperhex.getD n '0' ≠ '?' := by
  by_cases h : n < 16
  · interval_cases n <;> decide
  · have hl : upperhex.length ≤ n := by
      have : upperhex.length = 16 := by decide
      omega
    rw [List.getD_eq_default _ _ hl]
    decide

theorem escapeByte_no_question (c : Nat) : '?' ∉ escapeByte c := by
  unfold escapeByte
  split
  · decide
  · split
    · intro h
      simp only [List.mem_cons, List.mem_singleton, List.not_mem_nil, or_false] at h
      rcases h with h | h | h
      · exact absurd h (by decide)
      · exact upperhex_getD_ne _ h.symm
      · exact upperhex_getD_ne _ h.symm
    · rename_i h1 h2
      intro h
      simp only [List.mem_singleton] at h
      have hc : c < 127 := by
        simp only [shouldEscape] at h2
        by_contra hge
        have : ¬ (c ≤ 122) := by omega
        have h90 : ¬ (c ≤ 90) := by omega
        have h57 : ¬ (c ≤ 57) := by omega
        have h45 : ¬ (c = 45) := by omega
        have h95 : ¬ (c = 95) := by omega
        have h46 : ¬ (c = 46) := by omega
        have h126 : ¬ (c = 126) ∨ c = 126 := by omega
        rcases h126 with h126 | h126
        · simp [*] at h2
        · omega
      have h63 : c ≠ 63 := by
        intro h63
        subst h63
        simp [shouldEscape] at h2
      interval_cases c <;> first | exact absurd rfl h63 | exact absurd h (by decide)

theorem QueryEscape_no_question (q : String) : '?' ∉ (QueryEscape q).toList := by
  simp only [QueryEscape, String.toList, List.mem_flatMap, not_exists, not_and]
  intro ch _ b _
  exact escapeByte_no_question b

/-! ## The decoder consumes input and never runs out of budget -/

theorem skipSpace_length_le (cs : List Char) : (skipSpace cs).length ≤ cs.length := by
  induction cs with
  | nil => simp [skipSpace]
  | cons c cs ih =>
    simp only [skipSpace]
    split
    · simp only [List.length_cons]; omega
    · simp

theorem takeDigits_length_le (cs : List Char) : (takeDigits cs).2.length ≤ cs.length := by
  induction cs with
  | nil => simp [takeDigits]
  | cons c cs ih =>
    simp only [takeDigits]
    split
    · simp only [List.length_cons]; omega
    · simp

theorem scanInt_length_lt {cs i r : List Char} (h : scanInt cs = some (i, r)) :
    r.length < cs.length := by
  cases cs with
  | nil => simp [scanInt] at h
  | cons c cs =>
    simp only [scanInt] at h
    split at h
    · simp only [Option.some.injEq, Prod.mk.injEq] at h
      rw [← h.2]; simp
    · split at h
      · simp only [Option.some.injEq, Prod.mk.injEq] at h
        rw [← h.2]
        have := takeDigits_length_le cs
        simp only [List.length_cons]; omega
      · simp at h

theorem scanFrac_length_le {cs f r : List Char} (h : scanFrac cs = some (f, r)) :
    r.length ≤ cs.length := by
  unfold scanFrac at h
  split at h
  · split at h
    · simp at h
    · simp only [Option.some.injEq, Prod.mk.injEq] at h
      rw [← h.2]
      rename_i cs1 _
      have := takeDigits_length_le cs1
      simp only [List.length_cons]; omega
  · simp only [Option.some.injEq, Prod.mk.injEq] at h
    rw [← h.2]

theorem scanExpDigits_length_le {pre cs e r : List Char}
    (h : scanExpDigits pre cs = some (e, r)) : r.length ≤ cs.length := by
  unfold scanExpDigits at h
  split at h
  · simp at h
  · simp only [Option.some.injEq, Prod.mk.injEq] at h
    rw [← h.2]
    exact takeDigits_length_le cs

theorem scanExp_length_le {cs e r : List Char} (h : scanExp cs = some (e, r)) :
    r.length ≤ cs.length := by
  unfold scanExp at h
  split at h
  all_goals first
    | exact Nat.le_trans (scanExpDigits_length_le h) (by simp only [List.length_cons]; omega)
    | exact Nat.le_of_eq (congrArg List.length (Prod.mk.inj (Option.some.inj h)).2.symm)

theorem scanUnsigned_length_lt {cs lit r : List Char} (h : scanUnsigned cs = some (lit, r)) :
    r.length < cs.length := by
  unfold scanUnsigned at h
  split at h
  · simp at h
  · rename_i i r1 hi
    split at h
    · simp at h
    · rename_i f r2 hf
      split at h
      · simp at h
      · rename_i e r3 he
        simp only [Option.some.injEq, Prod.mk.injEq] at h
        have h1 := scanInt_length_lt hi
        have h2 := scanFrac_length_le hf
        have h3 := scanExp_length_le he
        rw [← h.2]; omega

theorem scanNumber_length_lt {cs lit r : List Char} (h : scanNumber cs = some (lit, r)) :
    r.length < cs.length := by
  unfold scanNumber at h
  split at h
  · rename_i cs1
    cases hu : scanUnsigned cs1 with
    | none => simp [hu] at h
    | some p =>
      obtain ⟨l, r1⟩ := p
      simp only [hu, Option.map_some', Option.some.injEq, Prod.mk.injEq] at h
      have := scanUnsigned_length_lt hu
      rw [← h.2]
      simp only [List.length_cons]; omega
  · exact scanUnsigned_length_lt h

theorem map_cons_eq_some {o : Option (List StrUnit × List Char)} {u : StrUnit}
    {us : List StrUnit} {r : List Char}
    (h : o.map (fun p => (u :: p.1, p.2)) = some (us, r)) :
    ∃ us1, o = some (us1, r) ∧ us = u :: us1 := by
  cases o with
  | none => simp at h
  | some p =>
    obtain ⟨us1, r1⟩ := p
    simp only [Option.map_some', Option.some.injEq, Prod.mk.injEq] at h
    exact ⟨us1, by rw [h.2], h.1.symm⟩

theorem scanStringUnits_length_aux : ∀ (n : Nat) (cs : List Char), cs.length ≤ n →
    ∀ us r, scanStringUnits cs = some (us, r) → r.length < cs.length := by
  intro n
  induction n with
  | zero =>
    intro cs hl us r h
    cases cs with
    | nil => simp [scanStringUnits] at h
    | cons c rest => simp at hl
  | succ n ih =>
    intro cs hl us r h
    cases cs with
    | nil => simp [scanStringUnits] at h
    | cons c rest =>
      simp only [List.length_cons] at hl ⊢
      rw [scanStringUnits.eq_def] at h
      simp only at h
      split at h
      · simp only [Option.some.injEq, Prod.mk.injEq] at h
        rw [← h.2]; omega
      · split at h
        · split at h
          · simp at h
          · rename_i e rest1
            simp only [List.length_cons] at hl ⊢
            split at h
            · split at h
              · rename_i a b c1 d rest2
                simp only [List.length_cons] at hl ⊢
                split at h
                · simp at h
                · obtain ⟨us1, hs, _⟩ := map_cons_eq_some h
                  have := ih rest2 (by omega) us1 r hs
                  omega
              · simp at h
            · split at h
              · simp at h
              · obtain ⟨us1, hs, _⟩ := map_cons_eq_some h
                have := ih rest1 (by omega) us1 r hs
                omega
        · split at h
          · simp at h
          · obtain ⟨us1, hs, _⟩ := map_cons_eq_some h
            have := ih rest (by omega) us1 r hs
            omega

theorem scanStringUnits_length_lt (cs : List Char) :
    ∀ us r, scanStringUnits cs = some (us, r) → r.length < cs.length :=
  scanStringUnits_length_aux cs.length cs (Nat.le_refl _)

theorem scanString_length_lt {cs : List Char} {s : String} {r : List Char}
    (h : scanString cs = some (s, r)) : r.length < cs.length := by
  unfold scanString at h
  cases hs : scanStringUnits cs with
  | none => simp [hs] at h
  | some p =>
    obtain ⟨us, r1⟩ := p
    simp only [hs, Option.map_some', Option.some.injEq, Prod.mk.injEq] at h
    rw [← h.2]
    exact scanStringUnits_length_lt cs us r1 hs

theorem convertNumber_ok {env : Env} {lit rest : List Char} {v : JValue} {e : Option Error}
    {r : List Char} (h : convertNumber env lit rest = .ok v e r) : r = rest := by
  unfold convertNumber at h
  split at h <;> simp only [Parsed.ok.injEq] at h <;> exact h.2.2.symm

theorem scanLiteral_length_le (w : List Char) :
    ∀ cs r, scanLiteral w cs = some r → r.length ≤ cs.length := by
  induction w with
  | nil => intro cs r h; simp only [scanLiteral, Option.some.injEq] at h; rw [h]
  | cons x ws ih =>
    intro cs r h
    cases cs with
    | nil => simp [scanLiteral] at h
    | cons c cs =>
      simp only [scanLiteral] at h
      split at h
      · have := ih cs r h
        simp only [List.length_cons]; omega
      · simp at h

theorem skipSpace_cons_length {cs : List Char} {c : Char} {rest : List Char}
    (h : skipSpace cs = c :: rest) : rest.length + 1 ≤ cs.length := by
  have := skipSpace_length_le cs
  rw [h] at this
  simpa using this

theorem decode_length (env : Env) : ∀ n,
    (∀ depth cs v e rest, decodeValue env n depth cs = .ok v e rest →
      rest.length < cs.length) ∧
    (∀ depth acc saved cs v e rest, decodeElems env n depth acc saved cs = .ok v e rest →
      rest.length < cs.length) ∧
    (∀ depth acc saved cs v e rest, decodeMembers env n depth acc saved cs = .ok v e rest →
      rest.length < cs.length) := by
  intro n
  induction n with
  | zero =>
    refine ⟨?_, ?_, ?_⟩
    · intro depth cs v e rest h; simp [decodeValue] at h
    · intro depth acc saved cs v e rest h; simp [decodeElems] at h
    · intro depth acc saved cs v e rest h; simp [decodeMembers] at h
  | succ n ih =>
    obtain ⟨ihV, ihE, ihM⟩ := ih
    refine ⟨?_, ?_, ?_⟩
    · intro depth cs v e rest h
      rw [decodeValue] at h
      split at h
      · simp at h
      · rename_i c r0 heq
        have hsp := skipSpace_cons_length heq
        split at h
        · split at h
          · simp at h
          · split at h
            · simp at h
            · rename_i c1 r1 heq1
              have hsp1 := skipSpace_cons_length heq1
              split at h
              · simp only [Parsed.ok.injEq] at h
                rw [← h.2.2]; omega
              · have := ihM _ _ _ _ _ _ _ h
                simp only [List.length_cons] at this; omega
        · split at h
          · split at h
            · simp at h
            · split at h
              · simp at h
              · rename_i c1 r1 heq1
                have hsp1 := skipSpace_cons_length heq1
                split at h
                · simp only [Parsed.ok.injEq] at h
                  rw [← h.2.2]; omega
                · have := ihE _ _ _ _ _ _ _ h
                  simp only [List.length_cons] at this; omega
          · split at h
            · split at h
              · simp at h
              · rename_i s r1 hs
                have := scanString_length_lt hs
                simp only [Parsed.ok.injEq] at h
                rw [← h.2.2]; omega
            · split at h
              · split at h
                · simp at h
                · rename_i r1 hs
                  have := scanLiteral_length_le _ _ _ hs
                  simp only [Parsed.ok.injEq] at h
                  rw [← h.2.2]; omega
              · split at h
                · split at h
                  · simp at h
                  · rename_i r1 hs
                    have := scanLiteral_length_le _ _ _ hs
                    simp only [Parsed.ok.injEq] at h
                    rw [← h.2.2]; omega
                · split at h
                  · split at h
                    · simp at h
                    · rename_i r1 hs
                      have := scanLiteral_length_le _ _ _ hs
                      simp only [Parsed.ok.injEq] at h
                      rw [← h.2.2]; omega
                  · split at h
                    · simp at h
                    · rename_i lit r1 hnum
                      have h1 := scanNumber_length_lt hnum
                      have h2 := convertNumber_ok h
                      simp only [List.length_cons] at h1
                      rw [h2]; omega
    · intro depth acc saved cs v e rest h
      rw [decodeElems] at h
      split at h
      · simp at h
      · simp at h
      · rename_i v1 e1 r1 hv
        have h1 := ihV _ _ _ _ _ hv
        split at h
        · simp at h
        · rename_i c r2 heq
          have hsp := skipSpace_cons_length heq
          split at h
          · have := ihE _ _ _ _ _ _ _ h
            omega
          · split at h
            · simp only [Parsed.ok.injEq] at h
              rw [← h.2.2]; omega
            · simp at h
    · intro depth acc saved cs v e rest h
      rw [decodeMembers] at h
      split at h
      · simp at h
      · rename_i c r0 heq
        have hsp := skipSpace_cons_length heq
        split at h
        · split at h
          · simp at h
          · rename_i key r1 hs
            have h1 := scanString_length_lt hs
            split at h
            · simp at h
            · rename_i c2 r2 heq2
              have hsp2 := skipSpace_cons_length heq2
              split at h
              · split at h
                · simp at h
                · simp at h
                · rename_i v1 e1 r3 hv
                  have h3 := ihV _ _ _ _ _ hv
                  split at h
                  · simp at h
                  · rename_i c4 r4 heq4
                    have hsp4 := skipSpace_cons_length heq4
                    split at h
                    · have := ihM _ _ _ _ _ _ _ h
                      omega
                    · split at h
                      · simp only [Parsed.ok.injEq] at h
                        rw [← h.2.2]; omega
                      · simp at h
              · simp at h
        · simp at h

theorem decode_fuel (env : Env) : ∀ n,
    (∀ depth cs, 2 * cs.length + 1 ≤ n → decodeValue env n depth cs ≠ .fuel) ∧
    (∀ depth acc saved cs, 2 * cs.length + 2 ≤ n →
      decodeElems env n depth acc saved cs ≠ .fuel) ∧
    (∀ depth acc saved cs, 2 * cs.length + 2 ≤ n →
      decodeMembers env n depth acc saved cs ≠ .fuel) := by
  intro n
  induction n with
  | zero =>
    refine ⟨?_, ?_, ?_⟩
    · intro depth cs h; omega
    · intro depth acc saved cs h; omega
    · intro depth acc saved cs h; omega
  | succ n ih =>
    obtain ⟨ihV, ihE, ihM⟩ := ih
    refine ⟨?_, ?_, ?_⟩
    · intro depth cs hn h
      rw [decodeValue] at h
      split at h
      · simp at h
      · rename_i c r0 heq
        have hsp := skipSpace_cons_length heq
        split at h
        · split at h
          · simp at h
          · split at h
            · simp at h
            · rename_i c1 r1 heq1
              have hsp1 := skipSpace_cons_length heq1
              split at h
              · simp at h
              · exact ihM _ _ _ _ (by simp only [List.length_cons]; omega) h
        · split at h
          · split at h
            · simp at h
            · split at h
              · simp at h
              · rename_i c1 r1 heq1
                have hsp1 := skipSpace_cons_length heq1
                split at h
                · simp at h
                · exact ihE _ _ _ _ (by simp only [List.length_cons]; omega) h
          · split at h
            · split at h <;> simp at h
            · split at h
              · split at h <;> simp at h
              · split at h
                · split at h <;> simp at h
                · split at h
                  · split at h <;> simp at h
                  · split at h
                    · simp at h
                    · unfold convertNumber at h
                      split at h <;> simp at h
    · intro depth acc saved cs hn h
      rw [decodeElems] at h
      split at h
      · rename_i hv
        exact ihV _ _ (by omega) hv
      · simp at h
      · rename_i v1 e1 r1 hv
        have h1 := (decode_length env n).1 _ _ _ _ _ hv
        split at h
        · simp at h
        · rename_i c r2 heq
          have hsp := skipSpace_cons_length heq
          split at h
          · exact ihE _ _ _ _ (by omega) h
          · split at h <;> simp at h
    · intro depth acc saved cs hn h
      rw [decodeMembers] at h
      split at h
      · simp at h
      · rename_i c r0 heq
        have hsp := skipSpace_cons_length heq
        split at h
        · split at h
          · simp at h
          · rename_i key r1 hs
            have h1 := scanString_length_lt hs
            split at h
            · simp at h
            · rename_i c2 r2 heq2
              have hsp2 := skipSpace_cons_length heq2
              split at h
              · split at h
                · rename_i hv
                  exact ihV _ _ (by omega) hv
                · simp at h
                · rename_i v1 e1 r3 hv
                  have h3 := (decode_length env n).1 _ _ _ _ _ hv
                  split at h
                  · simp at h
                  · rename_i c4 r4 heq4
                    have hsp4 := skipSpace_cons_length heq4
                    split at h
                    · exact ihM _ _ _ _ (by omega) h
                    · split at h <;> simp at h
              · simp at h
        · simp at h

/-- The recursion budget `Unmarshal` gives the decoder is never used up: the
decoder answers with a value or with a syntax error of the scanner. -/
theorem Unmarshal_fuel (env : Env) (body : String) :
    decodeValue env (2 * body.length + 2) 0 body.toList ≠ .fuel :=
  (decode_fuel env _).1 0 body.toList (by
    have h : body.toList.length = body.length := rfl
    omega)

/-! ## The decoder reads back what the encoder writes -/

theorem lessChars_irrefl (l : List Char) : lessChars l l = false := by
  induction l with
  | nil => rfl
  | cons a l ih => simp [lessChars, ih]

theorem lessChars_asymm : ∀ (a b : List Char), lessChars a b = true → lessChars b a = false
  | _, [], h => by simp [lessChars] at h
  | [], _ :: _, _ => by simp [lessChars]
  | a :: as, b :: bs, h => by
    simp only [lessChars, Bool.or_eq_true, decide_eq_true_eq, Bool.and_eq_true, beq_iff_eq] at h
    simp only [lessChars, Bool.or_eq_false_iff, decide_eq_false_iff_not, Bool.and_eq_false_iff]
    rcases h with h | ⟨h1, h2⟩
    · refine ⟨by omega, ?_⟩
      left
      rw [beq_eq_false_iff_ne]
      intro hba
      rw [hba] at h
      omega
    · subst h1
      exact ⟨by omega, Or.inr (lessChars_asymm as bs h2)⟩

theorem stringLess_irrefl (k : String) : stringLess k k = false :=
  lessChars_irrefl _

theorem stringLess_asymm {a b : String} (h : stringLess a b = true) : stringLess b a = false :=
  lessChars_asymm _ _ h

theorem mapSet_append {β : Type} (k : String) (v : β) :
    ∀ acc : List (String × β), (∀ kv ∈ acc, stringLess kv.1 k = true) →
      mapSet k v acc = acc ++ [(k, v)]
  | [], _ => rfl
  | (k1, v1) :: rest, h => by
    have h1 : stringLess k1 k = true := h (k1, v1) (by simp)
    have h2 : stringLess k k1 = false := stringLess_asymm h1
    have h3 : ¬ k = k1 := by
      intro he
      rw [he, stringLess_irrefl] at h1
      exact absurd h1 (by simp)
    have ih := mapSet_append k v rest (fun kv hkv => h kv (by simp [hkv]))
    simp [mapSet, h2, h3, ih]

theorem foldl_mapSet_ascending {β : Type} :
    ∀ (l acc : List (String × β)), keysAscending (l.map Prod.fst) = true →
      (∀ kv ∈ acc, ∀ kv1 ∈ l, stringLess kv.1 kv1.1 = true) →
      l.foldl (fun m kv => mapSet kv.1 kv.2 m) acc = acc ++ l
  | [], acc, _, _ => by simp
  | (k, v) :: rest, acc, hk, hacc => by
    simp only [List.map_cons, keysAscending, Bool.and_eq_true, List.all_eq_true,
      List.mem_map, forall_exists_index, and_imp, forall_apply_eq_imp_iff₂] at hk
    have h1 : mapSet k v acc = acc ++ [(k, v)] :=
      mapSet_append k v acc (fun kv hkv => hacc kv hkv (k, v) (by simp))
    simp only [List.foldl_cons, h1]
    rw [foldl_mapSet_ascending rest (acc ++ [(k, v)]) hk.2]
    · simp
    · intro kv hkv kv1 hkv1
      simp only [List.mem_append, List.mem_singleton] at hkv
      rcases hkv with hkv | hkv
      · exact hacc kv hkv kv1 (by simp [hkv1])
      · subst hkv
        exact hk.1 kv1 hkv1

theorem scanStringUnits_quote (rest : List Char) :
    scanStringUnits ('"' :: rest) = some ([], rest) := by
  rw [scanStringUnits.eq_def]
  simp

theorem scanStringUnits_plain (c : Char) (tail : List Char)
    (h1 : c ≠ '"') (h2 : c ≠ '\\') (h3 : ¬ c.toNat < 32) :
    scanStringUnits (c :: tail) =
      (scanStringUnits tail).map (fun p => (StrUnit.ch c :: p.1, p.2)) := by
  rw [scanStringUnits.eq_def]
  simp [h1, h2, h3]

theorem scanStringUnits_esc (e x : Char) (tail : List Char)
    (h1 : e ≠ 'u') (h2 : escapeChar e = some x) :
    scanStringUnits ('\\' :: e :: tail) =
      (scanStringUnits tail).map (fun p => (StrUnit.ch x :: p.1, p.2)) := by
  rw [scanStringUnits.eq_def]
  simp [h1, h2]

theorem scanStringUnits_u4 (a b c d : Char) (n : Nat) (tail : List Char)
    (h : getu4 a b c d = some n) :
    scanStringUnits ('\\' :: 'u' :: a :: b :: c :: d :: tail) =
      (scanStringUnits tail).map (fun p => (StrUnit.u4 n :: p.1, p.2)) := by
  rw [scanStringUnits.eq_def]
  simp [h]

theorem getu4_hexLower : ∀ n, n < 128 →
    getu4 '0' '0' (hexLower.getD (n / 16) '0') (hexLower.getD (n % 16) '0') = some n := by
  decide

/-- What `appendString` writes for one of the seven characters that have a
short escape, and what the scanner reads back. -/
theorem appendStringChar_short (k : Nat) (e : Char) (tail : List Char)
    (ha : appendStringChar (Char.ofNat k) = ['\\', e])
    (he : e ≠ 'u') (hx : escapeChar e = some (Char.ofNat k)) :
    scanStringUnits (appendStringChar (Char.ofNat k) ++ tail) =
      (scanStringUnits tail).map (fun p => (stringUnit (Char.ofNat k) :: p.1, p.2)) ∧
    (stringUnit (Char.ofNat k) = .ch (Char.ofNat k) ∨
      (stringUnit (Char.ofNat k) = .u4 (Char.ofNat k).toNat ∧
        isSurrogate (Char.ofNat k).toNat = false)) := by
  have hu : stringUnit (Char.ofNat k) = .ch (Char.ofNat k) := by
    simp [stringUnit, ha, he]
  rw [ha, hu]
  exact ⟨scanStringUnits_esc e _ tail he hx, Or.inl rfl⟩

theorem appendStringChar_scan (c : Char) (tail : List Char) :
    scanStringUnits (appendStringChar c ++ tail) =
      (scanStringUnits tail).map (fun p => (stringUnit c :: p.1, p.2)) ∧
    (stringUnit c = .ch c ∨ (stringUnit c = .u4 c.toNat ∧ isSurrogate c.toNat = false)) := by
  have hc : c = Char.ofNat c.toNat := (Char.ofNat_toNat c).symm
  by_cases h : c.toNat < 128
  · by_cases k34 : c.toNat = 34
    · rw [hc, k34]; exact appendStringChar_short 34 '"' tail (by decide) (by decide) (by decide)
    by_cases k92 : c.toNat = 92
    · rw [hc, k92]; exact appendStringChar_short 92 '\\' tail (by decide) (by decide) (by decide)
    by_cases k8 : c.toNat = 8
    · rw [hc, k8]; exact appendStringChar_short 8 'b' tail (by decide) (by decide) (by decide)
    by_cases k12 : c.toNat = 12
    · rw [hc, k12]; exact appendStringChar_short 12 'f' tail (by decide) (by decide) (by decide)
    by_cases k10 : c.toNat = 10
    · rw [hc, k10]; exact appendStringChar_short 10 'n' tail (by decide) (by decide) (by decide)
    by_cases k13 : c.toNat = 13
    · rw [hc, k13]; exact appendStringChar_short 13 'r' tail (by decide) (by decide) (by decide)
    by_cases k9 : c.toNat = 9
    · rw [hc, k9]; exact appendStringChar_short 9 't' tail (by decide) (by decide) (by decide)
    have n34 : c ≠ '"' := fun he => k34 (by rw [he]; decide)
    have n92 : c ≠ '\\' := fun he => k92 (by rw [he]; decide)
    have n10 : c ≠ '\n' := fun he => k10 (by rw [he]; decide)
    have n13 : c ≠ '\r' := fun he => k13 (by rw [he]; decide)
    have n9 : c ≠ '\t' := fun he => k9 (by rw [he]; decide)
    by_cases hs : htmlSafe c = true
    · have ha : appendStringChar c = [c] := by
        simp [appendStringChar, h, hs]
      have hu : stringUnit c = .ch c := by
        simp [stringUnit, ha]
      have h32 : ¬ c.toNat < 32 := by
        simp only [htmlSafe, Bool.and_eq_true, decide_eq_true_eq] at hs
        omega
      rw [ha, hu]
      exact ⟨scanStringUnits_plain c tail n34 n92 h32, Or.inl rfl⟩
    · have ha : appendStringChar c =
          ['\\', 'u', '0', '0', hexLower.getD (c.toNat / 16) '0',
            hexLower.getD (c.toNat % 16) '0'] := by
        simp [appendStringChar, h, hs, n34, n92, n10, n13, n9, k8, k12]
      have hu : stringUnit c = .u4 c.toNat := by
        simp [stringUnit, ha]
      have hsur : isSurrogate c.toNat = false := by
        simp only [isSurrogate, Bool.and_eq_false_iff, decide_eq_false_iff_not]
        left; omega
      rw [ha, hu]
      exact ⟨scanStringUnits_u4 _ _ _ _ _ tail (getu4_hexLower _ h), Or.inr ⟨rfl, hsur⟩⟩
  · by_cases h28 : c.toNat = 0x2028
    · have ha : appendStringChar (Char.ofNat 0x2028) = ['\\', 'u', '2', '0', '2', '8'] := by
        decide
      have hu : stringUnit (Char.ofNat 0x2028) = .u4 0x2028 := by decide
      rw [hc, h28, ha, hu]
      exact ⟨scanStringUnits_u4 _ _ _ _ _ tail (by decide), Or.inr ⟨by decide, by decide⟩⟩
    · by_cases h29 : c.toNat = 0x2029
      · have ha : appendStringChar (Char.ofNat 0x2029) = ['\\', 'u', '2', '0', '2', '9'] := by
          decide
        have hu : stringUnit (Char.ofNat 0x2029) = .u4 0x2029 := by decide
        rw [hc, h29, ha, hu]
        exact ⟨scanStringUnits_u4 _ _ _ _ _ tail (by decide), Or.inr ⟨by decide, by decide⟩⟩
      · have ha : appendStringChar c = [c] := by
          simp [appendStringChar, h, h28, h29]
        have h1 : c ≠ '"' := by
          intro he; subst he; exact h (by decide)
        have h2 : c ≠ '\\' := by
          intro he; subst he; exact h (by decide)
        have hu : stringUnit c = .ch c := by
          simp [stringUnit, ha]
        rw [ha, hu]
        exact ⟨scanStringUnits_plain c tail h1 h2 (by omega), Or.inl rfl⟩

theorem unquoteUnits_u4 (r : Nat) (tail : List StrUnit) (h : isSurrogate r = false) :
    unquoteUnits (.u4 r :: tail) = Char.ofNat r :: unquoteUnits tail := by
  cases tail with
  | nil => simp [unquoteUnits, h]
  | cons u rest =>
    cases u with
    | ch c => simp [unquoteUnits, h]
    | u4 r1 => simp [unquoteUnits, h]

theorem unquoteUnits_stringUnit (l : List Char) : unquoteUnits (l.map stringUnit) = l := by
  induction l with
  | nil => rfl
  | cons c l ih =>
    rcases (appendStringChar_scan c []).2 with h | ⟨h, hs⟩
    · simp [h, unquoteUnits, ih]
    · simp only [List.map_cons, h]
      rw [unquoteUnits_u4 _ _ hs, ih, Char.ofNat_toNat]

theorem scanStringUnits_flatMap (l rest : List Char) :
    scanStringUnits (l.flatMap appendStringChar ++ '"' :: rest) =
      some (l.map stringUnit, rest) := by
  induction l with
  | nil => simpa using scanStringUnits_quote rest
  | cons c l ih =>
    simp only [List.flatMap_cons, List.append_assoc, List.map_cons]
    rw [(appendStringChar_scan c _).1, ih]
    rfl

theorem scanString_appendString (s : String) (rest : List Char) :
    (appendString s).data ++ rest = '"' :: (s.data.flatMap appendStringChar ++ '"' :: rest) ∧
    scanString (s.data.flatMap appendStringChar ++ '"' :: rest) = some (s, rest) := by
  constructor
  · simp [appendString, String.toList]
  · simp only [scanString, scanStringUnits_flatMap, Option.map_some', unquoteUnits_stringUnit]

theorem skipSpace_of_not_space (c : Char) (tail : List Char) (h : isSpace c = false) :
    skipSpace (c :: tail) = c :: tail := by
  simp [skipSpace, h]

theorem startsValue_cons {l : List Char} (h : startsValue l = true) :
    ∃ c tail, l = c :: tail ∧ isSpace c = false ∧ c ≠ ']' := by
  cases l with
  | nil => simp [startsValue] at h
  | cons c tail =>
    simp only [startsValue, Bool.and_eq_true, Bool.not_eq_true', bne_iff_ne, ne_eq] at h
    exact ⟨c, tail, rfl, h.1, h.2⟩

theorem numberHead_facts (c : Char) (h : c = '-' ∨ c.isDigit = true) :
    isSpace c = false ∧ c ≠ '\x7b' ∧ c ≠ '[' ∧ c ≠ '"' ∧ c ≠ 't' ∧ c ≠ 'f' ∧ c ≠ 'n' ∧
      c ≠ ']' := by
  rcases h with h | h
  · subst h; decide
  · have hne : ∀ x : Char, x.isDigit = false → c ≠ x := by
      intro x hx he
      rw [he, hx] at h
      exact absurd h (by simp)
    refine ⟨?_, hne _ (by decide), hne _ (by decide), hne _ (by decide), hne _ (by decide),
      hne _ (by decide), hne _ (by decide), hne _ (by decide)⟩
    have h1 := hne ' ' (by decide)
    have h2 := hne '\t' (by decide)
    have h3 := hne '\r' (by decide)
    have h4 := hne '\n' (by decide)
    simp [isSpace, h1, h2, h3, h4]

theorem scanInt_head {cs : List Char} {p : List Char × List Char} (h : scanInt cs = some p) :
    ∃ c tail, cs = c :: tail ∧ c.isDigit = true := by
  cases cs with
  | nil => simp [scanInt] at h
  | cons c tail =>
    refine ⟨c, tail, rfl, ?_⟩
    simp only [scanInt] at h
    split at h
    · rename_i h0
      have : c = '0' := by simpa using h0
      rw [this]; decide
    · split at h
      · assumption
      · simp at h

theorem scanUnsigned_head {cs : List Char} {p : List Char × List Char}
    (h : scanUnsigned cs = some p) : ∃ c tail, cs = c :: tail ∧ c.isDigit = true := by
  unfold scanUnsigned at h
  split at h
  · simp at h
  · rename_i i r1 hi
    exact scanInt_head hi

theorem scanNumber_head {cs : List Char} {p : List Char × List Char}
    (h : scanNumber cs = some p) :
    ∃ c tail, cs = c :: tail ∧ (c = '-' ∨ c.isDigit = true) := by
  unfold scanNumber at h
  split at h
  · rename_i cs1
    exact ⟨'-', cs1, rfl, Or.inl rfl⟩
  · obtain ⟨c, tail, h1, h2⟩ := scanUnsigned_head h
    exact ⟨c, tail, h1, Or.inr h2⟩

theorem decodeValue_null (env : Env) (n dp : Nat) (rest : List Char) :
    decodeValue env (n + 1) dp ("null".data ++ rest) = .ok .null none rest := by
  show decodeValue env (n + 1) dp ('n' :: 'u' :: 'l' :: 'l' :: rest) = _
  rw [decodeValue]
  have h : skipSpace ('n' :: 'u' :: 'l' :: 'l' :: rest) = 'n' :: 'u' :: 'l' :: 'l' :: rest :=
    skipSpace_of_not_space _ _ (by decide)
  simp [h, scanLiteral]

theorem decodeValue_true (env : Env) (n dp : Nat) (rest : List Char) :
    decodeValue env (n + 1) dp ("true".data ++ rest) = .ok (.bool true) none rest := by
  show decodeValue env (n + 1) dp ('t' :: 'r' :: 'u' :: 'e' :: rest) = _
  rw [decodeValue]
  have h : skipSpace ('t' :: 'r' :: 'u' :: 'e' :: rest) = 't' :: 'r' :: 'u' :: 'e' :: rest :=
    skipSpace_of_not_space _ _ (by decide)
  simp [h, scanLiteral]

theorem decodeValue_false (env : Env) (n dp : Nat) (rest : List Char) :
    decodeValue env (n + 1) dp ("false".data ++ rest) = .ok (.bool false) none rest := by
  show decodeValue env (n + 1) dp ('f' :: 'a' :: 'l' :: 's' :: 'e' :: rest) = _
  rw [decodeValue]
  have h : skipSpace ('f' :: 'a' :: 'l' :: 's' :: 'e' :: rest) =
      'f' :: 'a' :: 'l' :: 's' :: 'e' :: rest :=
    skipSpace_of_not_space _ _ (by decide)
  simp [h, scanLiteral]

theorem decodeValue_string (env : Env) (n dp : Nat) (s : String) (rest : List Char) :
    decodeValue env (n + 1) dp ((appendString s).data ++ rest) = .ok (.string s) none rest := by
  rw [(scanString_appendString s rest).1, decodeValue]
  have h : skipSpace ('"' :: (s.data.flatMap appendStringChar ++ '"' :: rest)) =
      '"' :: (s.data.flatMap appendStringChar ++ '"' :: rest) :=
    skipSpace_of_not_space _ _ (by decide)
  simp [h, (scanString_appendString s rest).2]

theorem decodeValue_number (env : Env) (hnum : NumbersRoundTrip env) (n dp bits : Nat)
    (hlt : bits < 2 ^ 64) (hfin : isFinite bits = true) (rest : List Char)
    (hrest : endsValue rest = true) :
    decodeValue env (n + 1) dp ((env.FormatFloat bits).data ++ rest) =
      .ok (.number bits) none rest := by
  obtain ⟨hparse, hscan⟩ := hnum bits hlt hfin
  have hs := hscan rest hrest
  obtain ⟨c, tail, hcs, hc⟩ := scanNumber_head hs
  obtain ⟨f1, f2, f3, f4, f5, f6, f7, _⟩ := numberHead_facts c hc
  rw [hcs] at hs
  rw [hcs, decodeValue, skipSpace_of_not_space c tail f1]
  simp [f2, f3, f4, f5, f6, f7, hs, convertNumber, hparse]

theorem number_startsValue (env : Env) (hnum : NumbersRoundTrip env) (bits : Nat)
    (hlt : bits < 2 ^ 64) (hfin : isFinite bits = true) :
    startsValue (env.FormatFloat bits).data = true := by
  obtain ⟨_, hscan⟩ := hnum bits hlt hfin
  have hs := hscan [] rfl
  obtain ⟨c, tail, hcs, hc⟩ := scanNumber_head hs
  obtain ⟨f1, _, _, _, _, _, _, f8⟩ := numberHead_facts c hc
  simp only [List.append_nil] at hcs
  simp [hcs, startsValue, f1, f8]

theorem array_data (J : String) (rest : List Char) :
    ("[" ++ J ++ "]").data ++ rest = '[' :: (J.data ++ ']' :: rest) := by
  simp [String.data_append]

theorem object_data (J : String) (rest : List Char) :
    ("\x7b" ++ J ++ "\x7d").data ++ rest = '\x7b' :: (J.data ++ '\x7d' :: rest) := by
  simp [String.data_append]

theorem comma_data (p J : String) (rest : List Char) :
    (p ++ "," ++ J).data ++ rest = p.data ++ ',' :: (J.data ++ rest) := by
  simp [String.data_append]

theorem member_data (k v : String) (rest : List Char) :
    (appendString k ++ ":" ++ v).data ++ rest =
      '"' :: (k.data.flatMap appendStringChar ++ '"' :: ':' :: (v.data ++ rest)) := by
  simp [String.data_append, appendString, String.toList]

theorem joinComma_cons_cons (p q : String) (qs : List String) :
    joinComma (p :: q :: qs) = p ++ "," ++ joinComma (q :: qs) := rfl

theorem joinComma_single (p : String) : joinComma [p] = p := rfl

theorem array_length (J : String) : ("[" ++ J ++ "]").data.length = J.data.length + 2 := by
  simp [String.data_append]

theorem object_length (J : String) :
    ("\x7b" ++ J ++ "\x7d").data.length = J.data.length + 2 := by
  simp [String.data_append]

theorem comma_length (p J : String) :
    (p ++ "," ++ J).data.length = p.data.length + 1 + J.data.length := by
  simp [String.data_append]; omega

theorem member_length (k v : String) :
    (appendString k ++ ":" ++ v).data.length =
      (k.data.flatMap appendStringChar).length + 3 + v.data.length := by
  simp [String.data_append, appendString, String.toList]; omega

theorem fuel_succ {fuel k : Nat} (h : k + 1 ≤ fuel) : ∃ n, fuel = n + 1 :=
  ⟨fuel - 1, by omega⟩

theorem endsValue_comma (l : List Char) : endsValue (',' :: l) = true := rfl

theorem endsValue_bracket (l : List Char) : endsValue (']' :: l) = true := rfl

theorem endsValue_brace (l : List Char) : endsValue ('\x7d' :: l) = true := rfl

mutual
theorem roundtripValue (env : Env) (hnum : NumbersRoundTrip env) :
    ∀ d : JValue, d.serializable = true →
      ∃ body : String, marshalValue env d = .ok body ∧ startsValue body.data = true ∧
        ∀ fuel dp rest, 2 * (body.data.length + rest.length) + 1 ≤ fuel →
          dp + d.depth ≤ maxNestingDepth → endsValue rest = true →
          decodeValue env fuel dp (body.data ++ rest) = .ok d none rest
  | .null, _ => by
    refine ⟨"null", rfl, by decide, ?_⟩
    intro fuel dp rest hf _ _
    obtain ⟨n, rfl⟩ := fuel_succ hf
    exact decodeValue_null env n dp rest
  | .bool true, _ => by
    refine ⟨"true", rfl, by decide, ?_⟩
    intro fuel dp rest hf _ _
    obtain ⟨n, rfl⟩ := fuel_succ hf
    exact decodeValue_true env n dp rest
  | .bool false, _ => by
    refine ⟨"false", rfl, by decide, ?_⟩
    intro fuel dp rest hf _ _
    obtain ⟨n, rfl⟩ := fuel_succ hf
    exact decodeValue_false env n dp rest
  | .number bits, h => by
    have hb : bits < 2 ^ 64 ∧ isFinite bits = true := by
      simpa [JValue.serializable] using h
    refine ⟨env.FormatFloat bits, by simp [marshalValue, hb.2],
      number_startsValue env hnum bits hb.1 hb.2, ?_⟩
    intro fuel dp rest hf _ hr
    obtain ⟨n, rfl⟩ := fuel_succ hf
    exact decodeValue_number env hnum n dp bits hb.1 hb.2 rest hr
  | .string s, _ => by
    refine ⟨appendString s, rfl, ?_, ?_⟩
    · have := (scanString_appendString s []).1
      simp only [List.append_nil] at this
      rw [this]; rfl
    · intro fuel dp rest hf _ _
      obtain ⟨n, rfl⟩ := fuel_succ hf
      exact decodeValue_string env n dp s rest
  | .array elems, h => by
    have hser : serializableElems elems = true := h
    obtain ⟨parts, hm, hnil, hE⟩ := roundtripElems env hnum elems hser
    refine ⟨"[" ++ joinComma parts ++ "]", by simp [marshalValue, hm], ?_, ?_⟩
    · have := array_data (joinComma parts) []
      simp only [List.append_nil] at this
      rw [this]; rfl
    · intro fuel dp rest hf hd _
      obtain ⟨n, rfl⟩ := fuel_succ hf
      have hdepth : (JValue.array elems).depth = depthElems elems + 1 := by
        simp [JValue.depth]
      rw [hdepth] at hd
      have hdp : ¬ (dp + 1 > maxNestingDepth) := by omega
      rw [array_data, decodeValue, skipSpace_of_not_space _ _ (by decide)]
      rw [array_length] at hf
      cases elems with
      | nil =>
        have hp : parts = [] := hnil rfl
        subst hp
        have hj : (joinComma []).data = [] := rfl
        simp [hj, hdp, skipSpace_of_not_space ']' rest (by decide)]
      | cons x xs =>
        obtain ⟨hs, hdec⟩ := hE x xs rfl
        obtain ⟨c, tail, hc, hsp, hne⟩ := startsValue_cons hs
        have hdec1 := hdec n (dp + 1) [] rest (by omega) (by omega)
        rw [hc] at hdec1
        simp only [List.cons_append] at hdec1
        simp [hc, hdp, skipSpace_of_not_space c _ hsp, hne, hdec1]
  | .object members, h => by
    have hser : keysAscending (members.map Prod.fst) = true ∧
        serializableMembers members = true := by
      simpa [JValue.serializable] using h
    obtain ⟨parts, hm, hkeys, hnil, hM⟩ := roundtripMembers env hnum members hser.2
    have hfold : parts.foldl (fun m kv => mapSet kv.1 kv.2 m) [] = parts := by
      have := foldl_mapSet_ascending parts [] (by rw [hkeys]; exact hser.1) (by simp)
      simpa using this
    refine ⟨"\x7b" ++ joinComma (parts.map fun kv => appendString kv.1 ++ ":" ++ kv.2) ++
      "\x7d", by simp [marshalValue, hm, hfold], ?_, ?_⟩
    · have := object_data (joinComma (parts.map fun kv => appendString kv.1 ++ ":" ++ kv.2)) []
      simp only [List.append_nil] at this
      rw [this]; rfl
    · intro fuel dp rest hf hd _
      obtain ⟨n, rfl⟩ := fuel_succ hf
      have hdepth : (JValue.object members).depth = depthMembers members + 1 := by
        simp [JValue.depth]
      rw [hdepth] at hd
      have hdp : ¬ (dp + 1 > maxNestingDepth) := by omega
      rw [object_data, decodeValue, skipSpace_of_not_space _ _ (by decide)]
      rw [object_length] at hf
      cases members with
      | nil =>
        have hp : parts = [] := hnil rfl
        subst hp
        have hj : (joinComma []).data = [] := rfl
        simp [hj, hdp, skipSpace_of_not_space '\x7d' rest (by decide)]
      | cons kv kvs =>
        obtain ⟨hs, hdec⟩ := hM kv kvs rfl
        obtain ⟨c, tail, hc, hsp, hne⟩ := hs
        have hdec1 := hdec n (dp + 1) [] rest (by omega) (by omega) hser.1 (by simp)
        rw [hc] at hdec1
        simp only [List.cons_append, List.nil_append] at hdec1
        simp [hc, hdp, skipSpace_of_not_space c _ hsp, hne, hdec1]
theorem roundtripElems (env : Env) (hnum : NumbersRoundTrip env) :
    ∀ xs : List JValue, serializableElems xs = true →
      ∃ parts : List String, marshalElems env xs = .ok parts ∧ (xs = [] → parts = []) ∧
        ∀ x xs1, xs = x :: xs1 →
          startsValue (joinComma parts).data = true ∧
          ∀ fuel dp acc rest, 2 * ((joinComma parts).data.length + 1 + rest.length) + 2 ≤ fuel →
            dp + depthElems xs ≤ maxNestingDepth →
            decodeElems env fuel dp acc none ((joinComma parts).data ++ ']' :: rest) =
              .ok (.array (acc ++ xs)) none rest
  | [], _ => ⟨[], rfl, fun _ => rfl, fun x xs1 h => by simp at h⟩
  | x :: xs, h => by
    have hser : x.serializable = true ∧ serializableElems xs = true := by
      simpa [serializableElems] using h
    obtain ⟨p, hp, hps, hpd⟩ := roundtripValue env hnum x hser.1
    obtain ⟨ps, hm, hnil, hE⟩ := roundtripElems env hnum xs hser.2
    refine ⟨p :: ps, by simp [marshalElems, hp, hm], by simp, ?_⟩
    intro x1 xs1 _
    cases xs with
    | nil =>
      have hq : ps = [] := hnil rfl
      subst hq
      rw [joinComma_single]
      refine ⟨hps, ?_⟩
      intro fuel dp acc rest hf hd
      obtain ⟨n, rfl⟩ := fuel_succ hf
      have hdx : dp + x.depth ≤ maxNestingDepth := by
        simp only [depthElems] at hd
        omega
      have hv := hpd n dp (']' :: rest) (by simp only [List.length_cons]; omega) hdx
        (endsValue_bracket rest)
      rw [decodeElems, hv]
      simp [skipSpace_of_not_space ']' rest (by decide), saveError]
    | cons y ys =>
      obtain ⟨hs, hdec⟩ := hE y ys rfl
      cases ps with
      | nil => simp [joinComma, startsValue] at hs
      | cons q qs =>
        rw [joinComma_cons_cons]
        refine ⟨?_, ?_⟩
        · obtain ⟨c, tail, hc, hsp, hne⟩ := startsValue_cons hps
          have := comma_data p (joinComma (q :: qs)) []
          simp only [List.append_nil] at this
          rw [this, hc]
          simp [startsValue, hsp, hne]
        · intro fuel dp acc rest hf hd
          obtain ⟨n, rfl⟩ := fuel_succ hf
          rw [comma_length] at hf
          have hdx : dp + x.depth ≤ maxNestingDepth := by
            simp only [depthElems] at hd
            omega
          have hdxs : dp + depthElems (y :: ys) ≤ maxNestingDepth := by
            simp only [depthElems] at hd ⊢
            omega
          have hv := hpd n dp (',' :: ((joinComma (q :: qs)).data ++ ']' :: rest))
            (by simp only [List.length_cons, List.length_append]; omega) hdx
            (endsValue_comma _)
          have hrec := hdec n dp (acc ++ [x]) rest (by omega) hdxs
          rw [comma_data, decodeElems, hv]
          simp [skipSpace_of_not_space ',' _ (by decide), saveError, hrec]
theorem roundtripMembers (env : Env) (hnum : NumbersRoundTrip env) :
    ∀ kvs : List (String × JValue), serializableMembers kvs = true →
      ∃ parts : List (String × String), marshalMembers env kvs = .ok parts ∧
        parts.map Prod.fst = kvs.map Prod.fst ∧ (kvs = [] → parts = []) ∧
        ∀ kv kvs1, kvs = kv :: kvs1 →
          (∃ c tail,
            (joinComma (parts.map fun kv => appendString kv.1 ++ ":" ++ kv.2)).data =
              c :: tail ∧ isSpace c = false ∧ c ≠ '\x7d') ∧
          ∀ fuel dp acc rest,
            2 * ((joinComma (parts.map fun kv => appendString kv.1 ++ ":" ++ kv.2)).data.length
              + 1 + rest.length) + 2 ≤ fuel →
            dp + depthMembers kvs ≤ maxNestingDepth →
            keysAscending (kvs.map Prod.fst) = true →
            (∀ a ∈ acc, ∀ b ∈ kvs, stringLess a.1 b.1 = true) →
            decodeMembers env fuel dp acc none
              ((joinComma (parts.map fun kv => appendString kv.1 ++ ":" ++ kv.2)).data ++
                '\x7d' :: rest) = .ok (.object (acc ++ kvs)) none rest
  | [], _ => ⟨[], rfl, rfl, fun _ => rfl, fun kv kvs1 h => by simp at h⟩
  | (k, v) :: kvs, h => by
    have hser : v.serializable = true ∧ serializableMembers kvs = true := by
      simpa [serializableMembers] using h
    obtain ⟨p, hp, hps, hpd⟩ := roundtripValue env hnum v hser.1
    obtain ⟨ps, hm, hkeys, hnil, hM⟩ := roundtripMembers env hnum kvs hser.2
    refine ⟨(k, p) :: ps, by simp [marshalMembers, hp, hm], by simp [hkeys], by simp, ?_⟩
    intro kv1 kvs1 _
    cases kvs with
    | nil =>
      have hq : ps = [] := hnil rfl
      subst hq
      simp only [List.map_cons, List.map_nil, joinComma_single]
      refine ⟨?_, ?_⟩
      · have := member_data k p []
        simp only [List.append_nil] at this
        exact ⟨_, _, this, by decide, by decide⟩
      · intro fuel dp acc rest hf hd _ hacc
        obtain ⟨n, rfl⟩ := fuel_succ hf
        rw [member_length] at hf
        have hdx : dp + v.depth ≤ maxNestingDepth := by
          simp only [depthMembers] at hd
          omega
        have hv := hpd n dp ('\x7d' :: rest) (by simp only [List.length_cons]; omega) hdx
          (endsValue_brace rest)
        have hset : mapSet k v acc = acc ++ [(k, v)] :=
          mapSet_append k v acc (fun a ha => hacc a ha (k, v) (by simp))
        rw [member_data, decodeMembers, skipSpace_of_not_space '"' _ (by decide)]
        simp [(scanString_appendString k _).2, skipSpace_of_not_space ':' _ (by decide), hv,
          skipSpace_of_not_space '\x7d' rest (by decide), saveError, hset]
    | cons kv2 kvs2 =>
      obtain ⟨hs, hdec⟩ := hM kv2 kvs2 rfl
      cases ps with
      | nil =>
        obtain ⟨c, tail, hc, _, _⟩ := hs
        simp [joinComma] at hc
      | cons q qs =>
        simp only [List.map_cons, joinComma_cons_cons]
        refine ⟨?_, ?_⟩
        · have := comma_data (appendString k ++ ":" ++ p)
            (joinComma ((appendString q.1 ++ ":" ++ q.2) ::
              qs.map fun kv => appendString kv.1 ++ ":" ++ kv.2)) []
          simp only [List.append_nil] at this
          rw [this, member_data]
          exact ⟨_, _, rfl, by decide, by decide⟩
        · intro fuel dp acc rest hf hd hasc hacc
          obtain ⟨n, rfl⟩ := fuel_succ hf
          rw [comma_length, member_length] at hf
          simp only [List.map_cons] at hdec
          have hdx : dp + v.depth ≤ maxNestingDepth := by
            simp only [depthMembers] at hd
            omega
          have hdxs : dp + depthMembers (kv2 :: kvs2) ≤ maxNestingDepth := by
            simp only [depthMembers] at hd ⊢
            omega
          have hasc1 : (∀ b ∈ kv2 :: kvs2, stringLess k b.1 = true) ∧
              keysAscending ((kv2 :: kvs2).map Prod.fst) = true := by
            simpa [keysAscending] using hasc
          have hv := hpd n dp (',' :: ((joinComma ((appendString q.1 ++ ":" ++ q.2) ::
              qs.map fun kv => appendString kv.1 ++ ":" ++ kv.2)).data ++ '\x7d' :: rest))
            (by simp only [List.length_cons, List.length_append]; omega) hdx
            (endsValue_comma _)
          have hset : mapSet k v acc = acc ++ [(k, v)] :=
            mapSet_append k v acc (fun a ha => hacc a ha (k, v) (by simp))
          have hrec := hdec n dp (acc ++ [(k, v)]) rest (by omega) hdxs hasc1.2
            (by
              intro a ha b hb
              simp only [List.mem_append, List.mem_singleton] at ha
              rcases ha with ha | ha
              · exact hacc a ha b (by simp [hb])
              · subst ha
                exact hasc1.1 b hb)
          rw [comma_data, member_data, decodeMembers,
            skipSpace_of_not_space '"' _ (by decide)]
          simp [(scanString_appendString k _).2, skipSpace_of_not_space ':' _ (by decide), hv,
            skipSpace_of_not_space ',' _ (by decide), saveError, hset, hrec]
end

theorem roundtrip_Unmarshal (env : Env) (hnum : NumbersRoundTrip env) (d : JValue)
    (hser : d.serializable = true) (hdepth : d.depth ≤ maxNestingDepth) :
    ∃ body, Marshal env d = .ok body ∧ Unmarshal env body = (d, none) := by
  obtain ⟨body, hm, _, hdec⟩ := roundtripValue env hnum d hser
  refine ⟨body, hm, ?_⟩
  have hlen : body.data.length = body.length := rfl
  have h := hdec (2 * body.length + 2) 0 [] (by simp only [List.length_nil]; omega)
    (by omega) rfl
  simp only [List.append_nil] at h
  have ht : body.toList = body.data := rfl
  simp [Unmarshal, ht, h, skipSpace]

theorem endsValue_cases {rest : List Char} (h : endsValue rest = true) :
    rest = [] ∨ ∃ c tail, rest = c :: tail ∧ (c = ',' ∨ c = ']' ∨ c = '\x7d') := by
  cases rest with
  | nil => exact Or.inl rfl
  | cons c tail =>
    right
    refine ⟨c, tail, rfl, ?_⟩
    simpa [endsValue, or_assoc] using h

theorem takeDigits_ends {rest : List Char} (h : endsValue rest = true) :
    takeDigits rest = ([], rest) := by
  rcases endsValue_cases h with h | ⟨c, tail, h, hc⟩
  · subst h; rfl
  · subst h
    rcases hc with hc | hc | hc <;> subst hc <;> rfl

theorem takeDigits_zeros (k : Nat) {rest : List Char} (h : endsValue rest = true) :
    takeDigits (List.replicate k '0' ++ rest) = (List.replicate k '0', rest) := by
  induction k with
  | zero => simpa using takeDigits_ends h
  | succ k ih =>
    have hd : Char.isDigit '0' = true := by decide
    simp [List.replicate_succ, takeDigits, hd, ih]

theorem scanFrac_ends {rest : List Char} (h : endsValue rest = true) :
    scanFrac rest = some ([], rest) := by
  rcases endsValue_cases h with h | ⟨c, tail, h, hc⟩
  · subst h; rfl
  · subst h
    rcases hc with hc | hc | hc <;> subst hc <;> rfl

theorem scanExp_ends {rest : List Char} (h : endsValue rest = true) :
    scanExp rest = some ([], rest) := by
  rcases endsValue_cases h with h | ⟨c, tail, h, hc⟩
  · subst h; rfl
  · subst h
    rcases hc with hc | hc | hc <;> subst hc <;> rfl

/-- The toy number format of `unaryEnv` has the property asked of `strconv`. -/
theorem unaryEnv_NumbersRoundTrip : NumbersRoundTrip unaryEnv := by
  intro bits _ _
  refine ⟨?_, ?_⟩
  · show some ((String.mk ('1' :: List.replicate bits '0')).length - 1) = some bits
    simp [String.length]
  · intro rest hrest
    show scanNumber (('1' :: List.replicate bits '0') ++ rest) =
      some ('1' :: List.replicate bits '0', rest)
    have h1 : scanInt ('1' :: (List.replicate bits '0' ++ rest)) =
        some ('1' :: List.replicate bits '0', rest) := by
      have hd : Char.isDigit '1' = true := by decide
      have h0 : ('1' == '0') = false := by decide
      simp [scanInt, hd, h0, takeDigits_zeros bits hrest]
    have h2 : scanNumber ('1' :: (List.replicate bits '0' ++ rest)) =
        scanUnsigned ('1' :: (List.replicate bits '0' ++ rest)) := by
      unfold scanNumber
      split
      · rename_i heq
        exact absurd (List.cons.inj heq).1 (by decide)
      · rfl
    rw [List.cons_append, h2]
    simp [scanUnsigned, h1, scanFrac_ends hrest, scanExp_ends hrest]

theorem marshalValue_nest (env : Env) (k : Nat) :
    marshalValue env (nest k) =
      .ok (String.mk (List.replicate (k + 1) '[' ++ List.replicate (k + 1) ']')) := by
  induction k with
  | zero => rfl
  | succ k ih =>
    have hstr : ∀ l : List Char, "[" ++ String.mk l ++ "]" = String.mk ('[' :: (l ++ [']'])) := by
      intro l
      apply String.ext
      simp [String.data_append]
    have hl : '[' :: ((List.replicate (k + 1) '[' ++ List.replicate (k + 1) ']') ++ [']']) =
        List.replicate (k + 1 + 1) '[' ++ List.replicate (k + 1 + 1) ']' := by
      rw [List.replicate_succ (n := k + 1), List.replicate_succ' (n := k + 1)]
      simp
    simp only [nest, marshalValue, marshalElems, ih, joinComma_single, hstr, hl]

theorem nest_serializable (k : Nat) : (nest k).serializable = true := by
  induction k with
  | zero => rfl
  | succ k ih => simp [nest, JValue.serializable, serializableElems, ih]

theorem decodeValue_deep (env : Env) : ∀ (k n dp : Nat) (rest : List Char),
    maxNestingDepth < dp + (k + 1) → ∀ v e r,
      decodeValue env n dp (List.replicate (k + 1) '[' ++ rest) ≠ .ok v e r := by
  intro k
  induction k with
  | zero =>
    intro n dp rest hd v e r h
    cases n with
    | zero => simp [decodeValue] at h
    | succ n =>
      have hgt : dp + 1 > maxNestingDepth := by omega
      have hs : skipSpace ('[' :: rest) = '[' :: rest := skipSpace_of_not_space _ _ (by decide)
      rw [show List.replicate (0 + 1) '[' ++ rest = '[' :: rest from rfl, decodeValue, hs] at h
      simp [hgt] at h
  | succ k ih =>
    intro n dp rest hd v e r h
    cases n with
    | zero => simp [decodeValue] at h
    | succ n =>
      have hs : skipSpace ('[' :: (List.replicate (k + 1) '[' ++ rest)) =
          '[' :: (List.replicate (k + 1) '[' ++ rest) :=
        skipSpace_of_not_space _ _ (by decide)
      have hs1 : skipSpace (List.replicate (k + 1) '[' ++ rest) =
          '[' :: (List.replicate k '[' ++ rest) := by
        rw [List.replicate_succ, List.cons_append]
        exact skipSpace_of_not_space _ _ (by decide)
      rw [show List.replicate (k + 1 + 1) '[' ++ rest =
        '[' :: (List.replicate (k + 1) '[' ++ rest) from rfl, decodeValue, hs] at h
      by_cases hgt : dp + 1 > maxNestingDepth
      · simp [hgt] at h
      · simp only [hs1] at h
        have hbr : ¬ ('[' = '\x7b') := by decide
        have hbr2 : ¬ ('[' = ']') := by decide
        simp only [hbr, hbr2, if_false, if_true, hgt] at h
        cases n with
        | zero => simp [decodeElems] at h
        | succ n =>
          rw [decodeElems] at h
          have hin := ih n (dp + 1) rest (by omega)
          rw [List.replicate_succ, List.cons_append] at hin
          cases hv : decodeValue env n (dp + 1) ('[' :: (List.replicate k '[' ++ rest)) with
          | fuel => simp [hv] at h
          | bad => simp [hv] at h
          | ok v1 e1 r1 => exact hin v1 e1 r1 hv

theorem encodeDecode_nest (env : Env) (k : Nat) (hk : maxNestingDepth ≤ k) :
    encodeDecode env (nest k) = some (.null, some .jsonSyntaxError) := by
  have hm : Marshal env (nest k) =
      .ok (String.mk (List.replicate (k + 1) '[' ++ List.replicate (k + 1) ']')) :=
    marshalValue_nest env k
  have hu : Unmarshal env (String.mk (List.replicate (k + 1) '[' ++
      List.replicate (k + 1) ']')) = (.null, some .jsonSyntaxError) := by
    unfold Unmarshal
    have hdeep := decodeValue_deep env k
      (2 * (String.mk (List.replicate (k + 1) '[' ++
        List.replicate (k + 1) ']')).length + 2) 0
      (List.replicate (k + 1) ']') (by omega)
    have ht : (String.mk (List.replicate (k + 1) '[' ++
        List.replicate (k + 1) ']')).toList =
        List.replicate (k + 1) '[' ++ List.replicate (k + 1) ']' :=
      rfl
    rw [ht]
    split
    · rename_i v saved rest hv
      exact absurd hv (hdeep v saved rest)
    · rfl
    · rfl
  simp [encodeDecode, hm, httpResponseToJson_eq, hu]

/-! ## The claims -/

/-- C1. For every instance host `h` and bearer token `t`, the client of
`NewSalesforceClient(h, t)` has the base URL `https://h/services/data/v31/`
and a header map that maps `Authorization` to `Bearer t` and `Content-Type` to
`application/json` and has no other key. -/
theorem NewSalesforceClient_spec (h t : String) :
    (NewSalesforceClient h t).BaseURL = "https://" ++ h ++ "/services/data/v31/" ∧
    (NewSalesforceClient h t).Header =
      [("Authorization", "Bearer " ++ t), ("Content-Type", "application/json")] ∧
    mapGet "Authorization" (NewSalesforceClient h t).Header = some ("Bearer " ++ t) ∧
    mapGet "Content-Type" (NewSalesforceClient h t).Header = some "application/json" ∧
    ∀ k, k ≠ "Authorization" → k ≠ "Content-Type" →
      mapGet k (NewSalesforceClient h t).Header = none := by
  have hv : "/services/data/v" ++ ("31" ++ "/") = "/services/data/v31/" := by decide
  refine ⟨?_, NewSalesforceClient_Header h t, ?_, ?_, ?_⟩
  · show "https://" ++ h ++ "/services/data/v" ++ toString Version ++ "/" = _
    rw [toString_Version, String.append_assoc, String.append_assoc, hv]
  · rw [NewSalesforceClient_Header]; simp [mapGet]
  · rw [NewSalesforceClient_Header]
    have : ("Content-Type" = "Authorization") = False := by decide
    simp [mapGet, this]
  · intro k h1 h2
    rw [NewSalesforceClient_Header]; simp [mapGet, h1, h2]

/-- C2, the code at a failing input. On the client of
`NewSalesforceClient("na1.salesforce.com", "TOKEN")` the operations `Get`,
`Describe` and `Search` each hand over one GET request whose header is empty,
so it carries no `Authorization`; `Delete` with the same arguments hands over a
request that carries `Authorization: Bearer TOKEN`. -/
theorem read_requests_carry_no_Authorization :
    (Get (mockEnv 200 "[]") sampleClient "Account" "001" []).2 =
      [{ Method := "GET", URL := "https://na1.salesforce.com/services/data/v31/Account/001",
         Header := [], Body := none }] ∧
    (Describe (mockEnv 200 "[]") sampleClient []).2 =
      [{ Method := "GET", URL := "https://na1.salesforce.com/services/data/v31/sobjects",
         Header := [], Body := none }] ∧
    (Search (mockEnv 200 "[]") sampleClient "x" []).2 =
      [{ Method := "GET", URL := "https://na1.salesforce.com/services/data/v31/search/q=x",
         Header := [], Body := none }] ∧
    (Get (mockEnv 200 "[]") sampleClient "Account" "001" []).2.map
      (fun r => mapGet "Authorization" r.Header) = [none] ∧
    (Delete (mockEnv 200 "[]") sampleClient "Account" "001" []).2.map
      (fun r => mapGet "Authorization" r.Header) = [some ["Bearer TOKEN"]] := by
  refine ⟨?_, ?_, ?_, ?_, ?_⟩ <;> decide

/-- C3, the claim fails. `Search("SELECT Id FROM Account")` asks for the URL
ending in `search/q=SELECT+Id+FROM+Account`: each space is written `+`, and the
URL does not end in `search/q=SELECT%20Id%20FROM%20Account`. -/
theorem Search_example_not_percent20 :
    (Search (mockEnv 200 "[]") sampleClient "SELECT Id FROM Account" []).2.map
        (fun r => r.URL) =
      ["https://na1.salesforce.com/services/data/v31/search/q=SELECT+Id+FROM+Account"] ∧
    (Search (mockEnv 200 "[]") sampleClient "SELECT Id FROM Account" []).2.map
        (fun r => "search/q=SELECT%20Id%20FROM%20Account".toList.isSuffixOf r.URL.toList) =
      [false] := by
  constructor <;> decide

/-- C3, amended. For every client and query string `q`, when the URL parses,
`Search(q)` hands over exactly one request, a GET to
`BaseURL ++ "search/" ++ "q=" ++ url.QueryEscape(q)`; the suffix after the base
URL holds no `?`; and `url.QueryEscape` writes each space as `+`, so the query
`SELECT Id FROM Account` gives the suffix `search/q=SELECT+Id+FROM+Account`. -/
theorem Search_request (env : Env) (s : SalesforceClient) (q : String) (sent : List Request)
    (hurl : env.parseURL (s.BaseURL ++ "search/" ++ ("q=" ++ QueryEscape q)) = none) :
    (Search env s q sent).2 =
      sent ++ [{ Method := "GET", URL := s.BaseURL ++ "search/" ++ ("q=" ++ QueryEscape q),
                 Header := [], Body := none }] ∧
    '?' ∉ ("search/" ++ ("q=" ++ QueryEscape q)).toList ∧
    "search/" ++ ("q=" ++ QueryEscape "SELECT Id FROM Account") =
      "search/q=SELECT+Id+FROM+Account" := by
  refine ⟨?_, ?_, by decide⟩
  · have h := ReadOp_run_eq env s (.search q) sent
    simp only [ReadOp.run, ReadOp.requestURL] at h
    rw [h, getJsonDataFromURL_eq, hurl]
    cases env.roundTrip sent
      (getRequest (s.BaseURL ++ "search/" ++ ("q=" ++ QueryEscape q))) <;> rfl
  · have hq := QueryEscape_no_question q
    simp only [String.toList] at hq
    simp only [String.toList, String.data_append, List.mem_append, not_or]
    exact ⟨by decide, by decide, hq⟩

/-- C3, amended: the statement at the sample client and query. -/
theorem Search_request_witness :
    (Search (mockEnv 200 "[]") sampleClient "SELECT Id FROM Account" []).2 =
      [] ++ [{ Method := "GET",
               URL := sampleClient.BaseURL ++ "search/" ++
                 ("q=" ++ QueryEscape "SELECT Id FROM Account"),
               Header := [], Body := none }] ∧
    '?' ∉ ("search/" ++ ("q=" ++ QueryEscape "SELECT Id FROM Account")).toList ∧
    "search/" ++ ("q=" ++ QueryEscape "SELECT Id FROM Account") =
      "search/q=SELECT+Id+FROM+Account" :=
  Search_request (mockEnv 200 "[]") sampleClient "SELECT Id FROM Account" [] rfl

/-- C4, counterexample: the body `1e999` is syntactically valid JSON, the
scanner reads it whole as one number literal, but its value is beyond the
range of `float64`: `strconv.ParseFloat` reports an error on it, `json.Unmarshal`
saves an `UnmarshalTypeError`, and `Get("Account", "xyz")` against a server
that answers 404 with this body returns that error instead of nil. -/
theorem Get_number_out_of_range :
    scanNumber "1e999".toList = some ("1e999".toList, []) ∧
    Unmarshal (mockEnv 404 "1e999") "1e999" =
      (.null, some (.jsonUnmarshalTypeError "1e999")) ∧
    Get (mockEnv 404 "1e999") sampleClient "Account" "xyz" [] =
      ((.null, some (.jsonUnmarshalTypeError "1e999")),
       [{ Method := "GET", URL := sampleClient.BaseURL ++ "Account" ++ "/" ++ "xyz",
          Header := [], Body := none }]) :=
  ⟨by decide, rfl, rfl⟩

/-- C4, amended. For every client, object name `o`, record id `r` and response
the transport delivers to the GET for `BaseURL ++ o ++ "/" ++ r`, whatever its
status code: when the body is read and `json.Unmarshal` decodes it to `v`
without error, `Get(o, r)` hands over exactly that GET and returns `(v, nil)`. -/
theorem Get_ignores_status (env : Env) (s : SalesforceClient) (o r : String)
    (sent : List Request) (resp : Response) (v : JValue)
    (hurl : env.parseURL (s.BaseURL ++ o ++ "/" ++ r) = none)
    (hresp : env.roundTrip sent
      { Method := "GET", URL := s.BaseURL ++ o ++ "/" ++ r, Header := [], Body := none } =
        .ok resp)
    (hread : resp.ReadErr = none)
    (hjson : Unmarshal env resp.Body = (v, none)) :
    Get env s o r sent =
      ((v, none),
       sent ++ [{ Method := "GET", URL := s.BaseURL ++ o ++ "/" ++ r, Header := [],
                  Body := none }]) := by
  have h := ReadOp_run_eq env s (.get o r) sent
  simp only [ReadOp.run, ReadOp.requestURL] at h
  rw [h, getJsonDataFromURL_eq, hurl]
  simp only [getRequest, hresp, httpResponseToJson_eq, hread, hjson]

/-- C4, amended, at the example of the specification: status 404 with the body
`{"error":"not found"}` for `Get("Account", "xyz")`. -/
theorem Get_ignores_status_witness :
    Get (mockEnv 404 "\x7b\"error\":\"not found\"\x7d") sampleClient "Account" "xyz" [] =
      ((.object [("error", .string "not found")], none),
       [] ++ [{ Method := "GET", URL := sampleClient.BaseURL ++ "Account" ++ "/" ++ "xyz",
                Header := [], Body := none }]) :=
  Get_ignores_status (mockEnv 404 "\x7b\"error\":\"not found\"\x7d") sampleClient
    "Account" "xyz" [] { StatusCode := 404, Body := "\x7b\"error\":\"not found\"\x7d",
                         ReadErr := none }
    (.object [("error", .string "not found")]) rfl rfl rfl rfl

/-- C5. For every client and read operation (`Describe`, `Search`, `Get`):
when the transport delivers a response whose body is read and on which
`json.Unmarshal` reports an error, the operation returns that error, which is
not nil; the body `not json` is such a body, whatever the status code; and
the operation returns an error only if the transport call fails (the request
cannot be built or sent), reading the body fails, or the body fails to decode. -/
theorem read_error_contract (env : Env) (s : SalesforceClient) (op : ReadOp)
    (sent : List Request) :
    (∀ resp d e, env.parseURL (op.requestURL s) = none →
      env.roundTrip sent (getRequest (op.requestURL s)) = .ok resp →
      resp.ReadErr = none → Unmarshal env resp.Body = (d, some e) →
      (op.run env s sent).1 = (d, some e)) ∧
    Unmarshal env "not json" = (.null, some .jsonSyntaxError) ∧
    (∀ e, (op.run env s sent).1.2 = some e →
      env.parseURL (op.requestURL s) = some e ∨
      env.roundTrip sent (getRequest (op.requestURL s)) = .error e ∨
      ∃ resp, env.roundTrip sent (getRequest (op.requestURL s)) = .ok resp ∧
        (resp.ReadErr = some e ∨
          (resp.ReadErr = none ∧ (Unmarshal env resp.Body).2 = some e))) := by
  refine ⟨?_, rfl, ?_⟩
  · intro resp d e hurl hresp hread hjson
    rw [ReadOp_run_eq, getJsonDataFromURL_eq, hurl]
    simp only [hresp, httpResponseToJson_eq, hread, hjson]
  · intro e
    rw [ReadOp_run_eq, getJsonDataFromURL_eq]
    cases hurl : env.parseURL (op.requestURL s) with
    | some err =>
      intro h
      left
      simpa using h
    | none =>
      cases hresp : env.roundTrip sent (getRequest (op.requestURL s)) with
      | error err =>
        intro h
        right; left
        simpa using h
      | ok resp =>
        intro h
        right; right
        refine ⟨resp, rfl, ?_⟩
        simp only [httpResponseToJson_eq] at h
        cases hread : resp.ReadErr with
        | some err =>
          left
          simpa [hread] using h
        | none =>
          right
          refine ⟨rfl, ?_⟩
          simpa [hread] using h

/-- C5 at the example of the specification: status 200 with the body `not json`. -/
theorem read_error_contract_witness :
    (Describe (mockEnv 200 "not json") sampleClient []).1 = (.null, some .jsonSyntaxError) ∧
    (Search (mockEnv 200 "not json") sampleClient "SELECT Id FROM Account" []).1 =
      (.null, some .jsonSyntaxError) ∧
    (Get (mockEnv 200 "not json") sampleClient "Account" "xyz" []).1 =
      (.null, some .jsonSyntaxError) :=
  ⟨(read_error_contract (mockEnv 200 "not json") sampleClient .describe []).1
      { StatusCode := 200, Body := "not json", ReadErr := none } .null .jsonSyntaxError
      rfl rfl rfl rfl,
   (read_error_contract (mockEnv 200 "not json") sampleClient
      (.search "SELECT Id FROM Account") []).1
      { StatusCode := 200, Body := "not json", ReadErr := none } .null .jsonSyntaxError
      rfl rfl rfl rfl,
   (read_error_contract (mockEnv 200 "not json") sampleClient (.get "Account" "xyz") []).1
      { StatusCode := 200, Body := "not json", ReadErr := none } .null .jsonSyntaxError
      rfl rfl rfl rfl⟩

/-- C6. For every client, object name `o` and record id `r`: the request of
`Delete(o, r)` has the method DELETE, the URL `BaseURL ++ o ++ "/" ++ r`, no
body and the headers of the client; when the URL parses, `Delete` hands over
exactly this one request; for every response the transport delivers, whatever
its status code and body, `Delete` returns nil; and `Delete` returns an error
only when the request cannot be built or the transport fails to send it. -/
theorem Delete_contract (env : Env) (s : SalesforceClient) (o r : String)
    (sent : List Request) :
    clientRequest s "DELETE" (s.BaseURL ++ o ++ "/" ++ r) none =
      setHeaders s.Header
        { Method := "DELETE", URL := s.BaseURL ++ o ++ "/" ++ r, Header := [], Body := none } ∧
    (clientRequest s "DELETE" (s.BaseURL ++ o ++ "/" ++ r) none).Method = "DELETE" ∧
    (clientRequest s "DELETE" (s.BaseURL ++ o ++ "/" ++ r) none).URL =
      s.BaseURL ++ o ++ "/" ++ r ∧
    (clientRequest s "DELETE" (s.BaseURL ++ o ++ "/" ++ r) none).Body = none ∧
    (env.parseURL (s.BaseURL ++ o ++ "/" ++ r) = none →
      (Delete env s o r sent).2 =
        sent ++ [clientRequest s "DELETE" (s.BaseURL ++ o ++ "/" ++ r) none]) ∧
    (∀ resp, env.parseURL (s.BaseURL ++ o ++ "/" ++ r) = none →
      env.roundTrip sent (clientRequest s "DELETE" (s.BaseURL ++ o ++ "/" ++ r) none) =
        .ok resp →
      Delete env s o r sent =
        (none, sent ++ [clientRequest s "DELETE" (s.BaseURL ++ o ++ "/" ++ r) none])) ∧
    (∀ e, (Delete env s o r sent).1 = some e →
      (env.parseURL (s.BaseURL ++ o ++ "/" ++ r) = some e ∧ (Delete env s o r sent).2 = sent) ∨
      env.roundTrip sent (clientRequest s "DELETE" (s.BaseURL ++ o ++ "/" ++ r) none) =
        .error e) := by
  have hf := setHeaders_fields s.Header
    { Method := "DELETE", URL := s.BaseURL ++ o ++ "/" ++ r, Header := [], Body := none }
  refine ⟨rfl, hf.1, hf.2.1, hf.2.2, ?_, ?_, ?_⟩
  · intro hurl
    rw [Delete_eq, deleteDataForURL_eq, hurl]
    cases env.roundTrip sent
      (clientRequest s "DELETE" (s.BaseURL ++ o ++ "/" ++ r) none) <;> rfl
  · intro resp hurl hresp
    rw [Delete_eq, deleteDataForURL_eq, hurl]
    simp only [hresp]
  · intro e
    rw [Delete_eq, deleteDataForURL_eq]
    cases hurl : env.parseURL (s.BaseURL ++ o ++ "/" ++ r) with
    | some err =>
      intro h
      left
      exact ⟨by simpa using h, rfl⟩
    | none =>
      cases hresp : env.roundTrip sent
          (clientRequest s "DELETE" (s.BaseURL ++ o ++ "/" ++ r) none) with
      | error err =>
        intro h
        right
        simpa using h
      | ok resp =>
        intro h
        simp at h

/-- C6 at the example of the specification: `Delete("Account", "xyz")` against
a server that answers 500 with a body that is not JSON. -/
theorem Delete_contract_witness :
    Delete (mockEnv 500 "not json") sampleClient "Account" "xyz" [] =
      (none,
       [{ Method := "DELETE", URL := "https://na1.salesforce.com/services/data/v31/Account/xyz",
          Header := [("Authorization", ["Bearer TOKEN"]), ("Content-Type", ["application/json"])],
          Body := none }]) :=
  (Delete_contract (mockEnv 500 "not json") sampleClient "Account" "xyz" []).2.2.2.2.2.1
    { StatusCode := 500, Body := "not json", ReadErr := none } rfl rfl

/-- C7. For every client, object name `o`, record id `r`, data `d` and
transport, `Upsert(o, r, d)` and `Update(o, r, d)` return the same pair and
hand over the same requests; when `d` encodes to `body` and the URL parses,
this is the one request with the method PATCH, the URL
`BaseURL ++ o ++ "/" ++ r`, the body `body` and the headers of the client. -/
theorem Upsert_eq_Update (env : Env) (s : SalesforceClient) (o r : String) (d : JValue)
    (sent : List Request) :
    Upsert env s o r d sent = Update env s o r d sent ∧
    (∀ body, Marshal env d = .ok body →
      env.parseURL (s.BaseURL ++ o ++ "/" ++ r) = none →
      (Upsert env s o r d sent).2 =
        sent ++ [setHeaders s.Header
          { Method := "PATCH", URL := s.BaseURL ++ o ++ "/" ++ r, Header := [],
            Body := some body }] ∧
      (Update env s o r d sent).2 =
        sent ++ [setHeaders s.Header
          { Method := "PATCH", URL := s.BaseURL ++ o ++ "/" ++ r, Header := [],
            Body := some body }] ∧
      (setHeaders s.Header
          { Method := "PATCH", URL := s.BaseURL ++ o ++ "/" ++ r, Header := [],
            Body := some body }).Method = "PATCH" ∧
      (setHeaders s.Header
          { Method := "PATCH", URL := s.BaseURL ++ o ++ "/" ++ r, Header := [],
            Body := some body }).URL = s.BaseURL ++ o ++ "/" ++ r ∧
      (setHeaders s.Header
          { Method := "PATCH", URL := s.BaseURL ++ o ++ "/" ++ r, Header := [],
            Body := some body }).Body = some body) := by
  refine ⟨rfl, ?_⟩
  intro body hm hurl
  have hf := setHeaders_fields s.Header
    { Method := "PATCH", URL := s.BaseURL ++ o ++ "/" ++ r, Header := [], Body := some body }
  have hu : (Upsert env s o r d sent).2 =
      sent ++ [setHeaders s.Header
        { Method := "PATCH", URL := s.BaseURL ++ o ++ "/" ++ r, Header := [],
          Body := some body }] := by
    simp only [Upsert, returnData_eq]
    rw [setJsonDataForURL_eq env s "PATCH" _ d sent (by decide) (by decide), hm]
    simp only [hurl]
    cases env.roundTrip sent
      (clientRequest s "PATCH" (s.BaseURL ++ o ++ "/" ++ r) (some body)) <;> rfl
  exact ⟨hu, hu, hf.1, hf.2.1, hf.2.2⟩

/-- C7 at a sample: `Upsert` and `Update` of `{"Name":"Acme"}` on `Account/xyz`. -/
theorem Upsert_eq_Update_witness :
    (Upsert (mockEnv 200 "[]") sampleClient "Account" "xyz"
        (.object [("Name", .string "Acme")]) []).2 =
      [] ++ [setHeaders sampleClient.Header
        { Method := "PATCH", URL := sampleClient.BaseURL ++ "Account" ++ "/" ++ "xyz",
          Header := [], Body := some "\x7b\"Name\":\"Acme\"\x7d" }] :=
  ((Upsert_eq_Update (mockEnv 200 "[]") sampleClient "Account" "xyz"
    (.object [("Name", .string "Acme")]) []).2 "\x7b\"Name\":\"Acme\"\x7d" rfl rfl).1

/-- C8. For every client, object name `o` and data `d` that `json.Marshal`
encodes to `body`: when the URL parses, the transport delivers a response,
its body is read and `json.Unmarshal` decodes it to `v` without error, then
`Create(o, d)` hands over exactly one request, a POST to exactly
`BaseURL ++ o` with the body `body` and the headers of the client, and returns
`(v, nil)` whatever the status code; for a client with the header map of
`NewSalesforceClient(h, t)` the request headers are `Authorization: Bearer t`
and `Content-Type: application/json`. -/
theorem Create_contract (env : Env) (s : SalesforceClient) (o : String) (d : JValue)
    (sent : List Request) (body : String) (resp : Response) (v : JValue)
    (hm : Marshal env d = .ok body)
    (hurl : env.parseURL (s.BaseURL ++ o) = none)
    (hresp : env.roundTrip sent
      (setHeaders s.Header
        { Method := "POST", URL := s.BaseURL ++ o, Header := [], Body := some body }) =
        .ok resp)
    (hread : resp.ReadErr = none)
    (hjson : Unmarshal env resp.Body = (v, none)) :
    Create env s o d sent =
      ((v, none),
       sent ++ [setHeaders s.Header
         { Method := "POST", URL := s.BaseURL ++ o, Header := [], Body := some body }]) ∧
    (setHeaders s.Header
      { Method := "POST", URL := s.BaseURL ++ o, Header := [], Body := some body }).Method =
        "POST" ∧
    (setHeaders s.Header
      { Method := "POST", URL := s.BaseURL ++ o, Header := [], Body := some body }).URL =
        s.BaseURL ++ o ∧
    (setHeaders s.Header
      { Method := "POST", URL := s.BaseURL ++ o, Header := [], Body := some body }).Body =
        some body ∧
    (∀ h t, s.Header = (NewSalesforceClient h t).Header →
      (setHeaders s.Header
        { Method := "POST", URL := s.BaseURL ++ o, Header := [], Body := some body }).Header =
        [("Authorization", ["Bearer " ++ t]), ("Content-Type", ["application/json"])]) := by
  have hf := setHeaders_fields s.Header
    { Method := "POST", URL := s.BaseURL ++ o, Header := [], Body := some body }
  refine ⟨?_, hf.1, hf.2.1, hf.2.2, ?_⟩
  · simp only [Create, returnData_eq]
    rw [setJsonDataForURL_eq env s "POST" _ d sent (by decide) (by decide), hm]
    simp only [hurl, clientRequest, hresp, httpResponseToJson_eq, hread, hjson]
  · intro h t hh
    rw [hh, setHeaders_NewSalesforceClient]

/-- C8 at the example of the specification: status 201 with the body
`{"id":"abc","success":true}` for `Create("Account", {"Name":"Acme"})`. -/
theorem Create_contract_witness :
    Create (mockEnv 201 "\x7b\"id\":\"abc\",\"success\":true\x7d") sampleClient "Account"
        (.object [("Name", .string "Acme")]) [] =
      ((.object [("id", .string "abc"), ("success", .bool true)], none),
       [{ Method := "POST", URL := "https://na1.salesforce.com/services/data/v31/Account",
          Header := [("Authorization", ["Bearer TOKEN"]), ("Content-Type", ["application/json"])],
          Body := some "\x7b\"Name\":\"Acme\"\x7d" }]) :=
  (Create_contract (mockEnv 201 "\x7b\"id\":\"abc\",\"success\":true\x7d") sampleClient
    "Account" (.object [("Name", .string "Acme")]) [] "\x7b\"Name\":\"Acme\"\x7d"
    { StatusCode := 201, Body := "\x7b\"id\":\"abc\",\"success\":true\x7d", ReadErr := none }
    (.object [("id", .string "abc"), ("success", .bool true)]) rfl rfl rfl rfl rfl).1

/-- C9, the claim fails. Arrays nested 10001 deep are data `json.Marshal`
encodes, but the decoder of responses rejects the encoding (the scanner of
`json.Unmarshal` stops at `maxNestingDepth`): the body built from this data
does not decode back to it, the decoder returns nil and a syntax error. -/
theorem deep_nesting_not_inverse :
    (nest maxNestingDepth).serializable = true ∧
    encodeDecode (mockEnv 200 "") (nest maxNestingDepth) =
      some (.null, some .jsonSyntaxError) :=
  ⟨nest_serializable _, encodeDecode_nest _ _ (Nat.le_refl _)⟩

/-- C9, amended. For every generic value `d` (nil, bool, number, string,
sequence, string-keyed map) whose numbers are finite `float64` values and
which is nested at most `maxNestingDepth` = 10000 deep, and given the
guarantee of `strconv` that the text written for a finite `float64` is a
number literal from which `ParseFloat` reads the same value back: the body
that `Create`, `Upsert` and `Update` build from `d` is decoded by the decoder
of responses to `d` itself, without error. -/
theorem Marshal_Unmarshal_inverse (env : Env) (d : JValue)
    (hnum : NumbersRoundTrip env) (hser : d.serializable = true)
    (hdepth : d.depth ≤ maxNestingDepth) :
    encodeDecode env d = some (d, none) := by
  obtain ⟨body, hm, hu⟩ := roundtrip_Unmarshal env hnum d hser hdepth
  simp [encodeDecode, hm, httpResponseToJson_eq, hu]

/-- C9, amended, at a sample record with every kind of value. -/
theorem Marshal_Unmarshal_inverse_witness :
    encodeDecode unaryEnv sampleData = some (sampleData, none) :=
  Marshal_Unmarshal_inverse unaryEnv sampleData unaryEnv_NumbersRoundTrip
    (by decide) (by decide)

/-- C10. For every client, arguments and data `d` on which `json.Marshal`
fails with the error `e`, `Create`, `Upsert` and `Update` return `e` (with the
empty map as value) and hand over no request: the list of requests is unchanged. -/
theorem encode_error_sends_nothing (env : Env) (s : SalesforceClient) (o r : String)
    (d : JValue) (sent : List Request) (e : Error)
    (hm : Marshal env d = .error e) :
    Create env s o d sent = ((.object [], some e), sent) ∧
    Upsert env s o r d sent = ((.object [], some e), sent) ∧
    Update env s o r d sent = ((.object [], some e), sent) := by
  refine ⟨?_, ?_, ?_⟩
  · simp only [Create, returnData_eq]
    rw [setJsonDataForURL_eq env s "POST" _ d sent (by decide) (by decide), hm]
  · simp only [Upsert, returnData_eq]
    rw [setJsonDataForURL_eq env s "PATCH" _ d sent (by decide) (by decide), hm]
  · simp only [Update, returnData_eq]
    rw [setJsonDataForURL_eq env s "PATCH" _ d sent (by decide) (by decide), hm]

/-- C10 at a sample: data that holds a NaN cannot be encoded. -/
theorem encode_error_sends_nothing_witness :
    Marshal (mockEnv 200 "[]") (.array [.number nanBits]) =
      .error (.jsonUnsupportedValueError nanBits) ∧
    Create (mockEnv 200 "[]") sampleClient "Account" (.array [.number nanBits]) [] =
      ((.object [], some (.jsonUnsupportedValueError nanBits)), []) ∧
    Upsert (mockEnv 200 "[]") sampleClient "Account" "xyz" (.array [.number nanBits]) [] =
      ((.object [], some (.jsonUnsupportedValueError nanBits)), []) ∧
    Update (mockEnv 200 "[]") sampleClient "Account" "xyz" (.array [.number nanBits]) [] =
      ((.object [], some (.jsonUnsupportedValueError nanBits)), []) :=
  ⟨rfl, encode_error_sends_nothing (mockEnv 200 "[]") sampleClient "Account" "xyz"
    (.array [.number nanBits]) [] (.jsonUnsupportedValueError nanBits) rfl⟩

end Salesforce
